import Mathlib

/-!
Verification development for the virtual-memory bootstrap (src/paging.c).

The C code is shallowly embedded: machine integers become `Nat` with
explicit reductions modulo the field / register width at every point where
the C code truncates; physical memory is a total map from frame base
addresses to 512-entry tables; the physical-frame allocator (an external
collaborator, `pagealloc.h`) is a free list; fallible operations return
`Except St _`, the error carrying the machine state at the halt point
(frame-allocator exhaustion is fatal per the design, there is no recovery
path).  Diagnostic serial output has no control-flow effect and is not
modelled.
-/

/-- PE; Page Entry (struct Pe, src/paging.c lines 27-88).  Every field is
the `Nat` value of the corresponding bit-field; writes reduce modulo the
declared field width exactly where the C bit-field assignment truncates. -/
structure Pe where
  /-- P; Present (1 bit) -/
  p : Nat
  /-- R/W; Read/write (1 bit) -/
  rw : Nat
  /-- U/S; User/supervisor (1 bit) -/
  us : Nat
  /-- PWT; Page-level write-through (1 bit) -/
  pwt : Nat
  /-- PCD; Page-level cache disable (1 bit) -/
  pcd : Nat
  /-- A; Accessed (1 bit) -/
  a : Nat
  /-- D; Dirty (1 bit) -/
  d : Nat
  /-- PAT / PS (1 bit) -/
  pat_ps : Nat
  /-- G; Global (1 bit) -/
  g : Nat
  /-- Ignored (3 bits) -/
  ignored_0 : Nat
  /-- Physical address, frame number (40 bits) -/
  phy : Nat
  /-- Ignored (7 bits) -/
  ignored_1 : Nat
  /-- Protection key (4 bits) -/
  pk : Nat
  /-- XD; Execution-disable (1 bit) -/
  xd : Nat
deriving DecidableEq, Repr

/-- The all-zero entry: the state of an entry in a zeroed table. -/
def Pe.zero : Pe := ⟨0, 0, 0, 0, 0, 0, 0, 0, 0, 0, 0, 0, 0, 0⟩

/-- `init_pe` (src/paging.c lines 112-117): `pe->phy = ppa >> 12` (the
assignment to the 40-bit field truncates), `pe->p = 1`, `pe->rw = 1`.
All other fields are left as they were. -/
def init_pe (pe : Pe) (ppa : Nat) : Pe :=
  { pe with phy := (ppa >>> 12) % 2 ^ 40, p := 1, rw := 1 }

/-- An entry is Present when its P bit is nonzero (`pe->p == 0` is the
code's absence test). -/
def isP (e : Pe) : Prop := e.p ≠ 0

instance (e : Pe) : Decidable (isP e) := by unfold isP; infer_instance

/-- The decoded frame address of an entry: `pe->phy << PAGE_SIZE_BITS`
(src/paging.c line 132). -/
def childAddr (e : Pe) : Nat := e.phy <<< 12

/-- The value `init_pe` makes `childAddr` decode to for a stored physical
address `p`. -/
def frameOf (p : Nat) : Nat := ((p >>> 12) % 2 ^ 40) <<< 12

/-- Modelled from the spec: the `LinAddr` bit-field record of `address.h`
(not under src/); spec section 3 fixes the layout: page offset bits 0-11,
PT index bits 12-20, PD index bits 21-29, PDPT index bits 30-38, PML4
index bits 39-47. -/
structure LinAddr where
  offset : Nat
  pt : Nat
  pd : Nat
  pdpt : Nat
  pml4 : Nat
deriving DecidableEq, Repr

/-- Modelled from the spec: `linaddr` (src/paging.c lines 106-110)
reinterprets a 64-bit value by the `LinAddr` layout above; extraction is
pure shift-and-mask. -/
def linaddr (a : Nat) : LinAddr :=
  ⟨a % 4096, (a >>> 12) % 512, (a >>> 21) % 512, (a >>> 30) % 512, (a >>> 39) % 512⟩

/-- The four table indices of a linear address: the part of the address
that selects the leaf entry of the four-level walk. -/
def pagePath (v : Nat) : Nat × Nat × Nat × Nat :=
  ((linaddr v).pml4, (linaddr v).pdpt, (linaddr v).pd, (linaddr v).pt)

/-- Trace events: the observable phase steps of the bootstrap, recorded
in order (ghost instrumentation for the temporal claims). -/
inductive Ev where
  /-- the root table was zeroed (the `memset` in `setup_paging`) -/
  | zeroRoot : Ev
  /-- one leaf page-table entry was written (`map_page_pt`) -/
  | mapWrite : Ev
  /-- translation was activated (`enable_paging` wrote CR3) -/
  | activate : Ev
deriving DecidableEq, Repr

/-- Region type of a firmware memory descriptor (spec section 6: at
minimum LoaderCode, LoaderData, Other). -/
inductive EfiType where
  | loaderCode : EfiType
  | loaderData : EfiType
  | other : EfiType
deriving DecidableEq, Repr

/-- Modelled from the spec: one firmware memory descriptor of the
pre-decoded sequence (`EFI_MEMORY_DESCRIPTOR`, efi.h not under src/):
physical start, page count, region type, and the runtime-reserved
attribute bit (`Attribute & EFI_MEMORY_RUNTIME`). -/
structure Desc where
  physicalStart : Nat
  numberOfPages : Nat
  type : EfiType
  runtimeAttr : Bool
deriving DecidableEq, Repr

/-- The machine state the paging code acts on: `mem` maps a table's frame
base address and an entry index to the entry stored there; `free` is the
allocator's remaining frame supply (modelled from the spec: the
physical-frame allocator is specified only at its interface); `allocated`
is the ghost record of every frame the allocator has handed out; `root`
is the address of the static `pml4` array; `cr3` the translation-base
register; `trace` the ghost event log. -/
structure St where
  root : Nat
  mem : Nat → Nat → Pe
  free : List Nat
  allocated : List Nat
  cr3 : Nat
  trace : List Ev

/-- Store entry `e` at index `i` of the table based at `t`. -/
def writePe (m : Nat → Nat → Pe) (t i : Nat) (e : Pe) : Nat → Nat → Pe :=
  fun a j => if a = t ∧ j = i then e else m a j

/-- Modelled from the spec: `pgalloc` (pagealloc.h, not under src/)
returns one 4096-byte-aligned currently-unused physical frame, or signals
exhaustion, which is fatal this early in boot: the error result carries
the state at the halt. -/
def pgalloc (st : St) : Except St (Nat × St) :=
  match st.free with
  | [] => .error st
  | f :: rest => .ok (f, { st with free := rest, allocated := st.allocated ++ [f] })

/-- `get_pm` (src/paging.c lines 120-137): if the entry at `pt[pi]` is not
Present, allocate a frame, link it with `init_pe`, and return it;
otherwise return the entry's decoded frame address.  The allocated frame's
contents are NOT touched. -/
def get_pm (st : St) (pt : Nat) (pi : Nat) : Except St (Nat × St) :=
  let pe := st.mem pt pi
  if pe.p = 0 then
    match pgalloc st with
    | .error s => .error s
    | .ok (page, st1) =>
      .ok (page, { st1 with mem := writePe st1.mem pt pi (init_pe pe page) })
  else
    .ok (pe.phy <<< 12, st)

/-- `map_page_pt` (src/paging.c lines 139-145): write the leaf entry for
`vpa` in the page table based at `pt`.  Emits one `mapWrite` event. -/
def map_page_pt (st : St) (pt : Nat) (vpa ppa : Nat) : St :=
  { st with
    mem := writePe st.mem pt (linaddr vpa).pt (init_pe (st.mem pt (linaddr vpa).pt) ppa),
    trace := st.trace ++ [Ev.mapWrite] }

/-- `map_page_pd` (src/paging.c lines 147-151). -/
def map_page_pd (st : St) (pd : Nat) (vpa ppa : Nat) : Except St St :=
  match get_pm st pd (linaddr vpa).pd with
  | .error s => .error s
  | .ok (pt, st1) => .ok (map_page_pt st1 pt vpa ppa)

/-- `map_page_pdpt` (src/paging.c lines 153-157). -/
def map_page_pdpt (st : St) (pdpt : Nat) (vpa ppa : Nat) : Except St St :=
  match get_pm st pdpt (linaddr vpa).pdpt with
  | .error s => .error s
  | .ok (pd, st1) => map_page_pd st1 pd vpa ppa

/-- `map_page_pml4` (src/paging.c lines 159-165); the root table is the
static `pml4` array, i.e. the table based at `st.root`. -/
def map_page_pml4 (st : St) (vpa ppa : Nat) : Except St St :=
  match get_pm st st.root (linaddr vpa).pml4 with
  | .error s => .error s
  | .ok (pdpt, st1) => map_page_pdpt st1 pdpt vpa ppa

/-- The `for(; vra < vrae; vra += PAGE_SIZE, pra += PAGE_SIZE)` loop of
`map_region`, by its iteration count: within every reachable execution
`vrae - vra` is a nonnegative multiple of 4096, so the loop runs exactly
`(vrae - vra) / 4096` times and the running `uint64_t` counters never
wrap; the modulo on the values passed down keeps the embedding within
64-bit range on all inputs. -/
def mapLoopN : Nat → Nat → Nat → St → Except St St
  | 0, _, _, st => .ok st
  | n + 1, vra, pra, st =>
    match map_page_pml4 st (vra % 2 ^ 64) (pra % 2 ^ 64) with
    | .error s => .error s
    | .ok st1 => mapLoopN n (vra + 4096) (pra + 4096) st1

/-- `map_region` (src/paging.c lines 167-179): `np` is the C `int`
argument; `vrae = vra + np * PAGE_SIZE` is computed in 64-bit unsigned
arithmetic (`PAGE_SIZE` = 4096, modelled from the spec since the header
is not under src/), so a negative `np` larger than `vra` wraps around
2^64. -/
def map_region (st : St) (vra pra : Nat) (np : Int) : Except St St :=
  let vrae : Nat := (((vra : Int) + np * 4096) % (2 ^ 64 : Int)).toNat
  mapLoopN ((vrae - vra) / 4096) vra pra st

/-- `map_region_id` (src/paging.c lines 181-186): identity form,
`virtual base = physical base`. -/
def map_region_id (st : St) (a : Nat) (np : Int) : Except St St :=
  map_region st a a np

/-- `enable_paging` (src/paging.c lines 188-191): install the root table's
physical base into CR3.  Emits the `activate` event. -/
def enable_paging (st : St) : St :=
  { st with cr3 := st.root, trace := st.trace ++ [Ev.activate] }

/-- The `uint64_t -> int` narrowing at the `map_region_id(a, np)` call
boundary (src/paging.c lines 181, 200-204): the 64-bit page count
`md->NumberOfPages` is passed into the 32-bit `int np` parameter.
Out-of-range values wrap two's-complement modulo 2^32 (the conversion is
implementation-defined in C; this is the behavior of the targeted
compilers), so for example a count of 2^32 narrows to 0 and maps
nothing. -/
def toIntC (n : Nat) : Int :=
  if n % 2 ^ 32 < 2 ^ 31 then ((n % 2 ^ 32 : Nat) : Int)
  else ((n % 2 ^ 32 : Nat) : Int) - 2 ^ 32

/-- `map_efi_regions` (src/paging.c lines 193-208): per descriptor, first
matching condition wins — runtime-reserved attribute, else LoaderCode,
else LoaderData, else skip; a selected region is identity-mapped via
`map_region_id`, whose `int np` parameter narrows the 64-bit descriptor
page count (`toIntC`).  The descriptor sequence is the pre-decoded
firmware memory map (spec section 6). -/
def map_efi_regions (st : St) (mds : List Desc) : Except St St :=
  match mds with
  | [] => .ok st
  | md :: rest =>
    let step : Except St St :=
      if md.runtimeAttr then map_region_id st md.physicalStart (toIntC md.numberOfPages)
      else if md.type = EfiType.loaderCode then
        map_region_id st md.physicalStart (toIntC md.numberOfPages)
      else if md.type = EfiType.loaderData then
        map_region_id st md.physicalStart (toIntC md.numberOfPages)
      else .ok st
    match step with
    | .error s => .error s
    | .ok st1 => map_efi_regions st1 rest

/-- The `memset(pml4, 0, sizeof(pml4))` step of `setup_paging`: the root
table becomes 512 zero entries.  Emits the `zeroRoot` event. -/
def zero_pml4 (st : St) : St :=
  { st with
    mem := fun a => if a = st.root then (fun _ => Pe.zero) else st.mem a,
    trace := st.trace ++ [Ev.zeroRoot] }

/-- `setup_paging` (src/paging.c lines 234-246): zero the root table,
apply the identity-mapping policy over the firmware memory map, then
activate.  (`map_kernel` and `map_framebuffer` are commented out in the
source.) -/
def setup_paging (st : St) (mm : List Desc) : Except St St :=
  match map_efi_regions (zero_pml4 st) mm with
  | .error s => .error s
  | .ok st1 => .ok (enable_paging st1)

/-- The hardware four-level translation of linear address `v` through the
tables rooted at `st.root` (spec sections 3 and 8: the walk visits
PML4 -> PDPT -> PD -> PT and yields the leaf entry's decoded frame
address, or nothing at the first non-Present entry). -/
def walk (st : St) (v : Nat) : Option Nat :=
  let e4 := st.mem st.root (linaddr v).pml4
  if e4.p = 0 then none else
    let e3 := st.mem (childAddr e4) (linaddr v).pdpt
    if e3.p = 0 then none else
      let e2 := st.mem (childAddr e3) (linaddr v).pd
      if e2.p = 0 then none else
        let e1 := st.mem (childAddr e2) (linaddr v).pt
        if e1.p = 0 then none else some (childAddr e1)

/-- `Lv st k a`: the frame based at `a` is a live level-`k` table of the
hierarchy (level 0 = the root, level `k+1` = the target of a Present entry
of a level-`k` table). -/
def Lv (st : St) : Nat → Nat → Prop
  | 0, a => a = st.root
  | k + 1, a => ∃ b, Lv st k b ∧ ∃ i, isP (st.mem b i) ∧ childAddr (st.mem b i) = a

/-- The well-formedness invariant of the paging state: the free list
holds fresh, zeroed, page-aligned, sub-2^52 frames disjoint from every
live table; live tables of different levels are distinct; Present entries
of same-level tables have pairwise distinct targets; every live non-root
table was handed out by the allocator. -/
structure PgInv (st : St) : Prop where
  freeZero : ∀ a ∈ st.free, ∀ i, st.mem a i = Pe.zero
  freeNodup : st.free.Nodup
  freeAligned : ∀ a ∈ st.free, a % 4096 = 0
  freeBound : ∀ a ∈ st.free, a < 2 ^ 52
  freeFresh : ∀ a ∈ st.free, ∀ k, k ≤ 3 → ¬ Lv st k a
  disj : ∀ k k', k < k' → k' ≤ 3 → ∀ a, Lv st k a → ¬ Lv st k' a
  inj : ∀ k, k < 3 → ∀ b b', Lv st k b → Lv st k b' → ∀ i i',
    isP (st.mem b i) → isP (st.mem b' i') →
    childAddr (st.mem b i) = childAddr (st.mem b' i') → b = b' ∧ i = i'
  allocd : ∀ k, 1 ≤ k → k ≤ 3 → ∀ a, Lv st k a → a ∈ st.allocated

/-! ## Basic facts about the entry codec and the address decomposition -/

theorem childAddr_init_pe (e : Pe) (A : Nat) (h4 : A % 4096 = 0) (h52 : A < 2 ^ 52) :
    childAddr (init_pe e A) = A := by
  simp only [childAddr, init_pe, Nat.shiftRight_eq_div_pow, Nat.shiftLeft_eq]
  norm_num
  omega

theorem childAddr_init_pe_frameOf (e : Pe) (p : Nat) :
    childAddr (init_pe e p) = frameOf p := rfl

theorem frameOf_eq (p : Nat) (h4 : p % 4096 = 0) (h52 : p < 2 ^ 52) :
    frameOf p = p := childAddr_init_pe Pe.zero p h4 h52

theorem isP_init_pe (e : Pe) (A : Nat) : isP (init_pe e A) := by
  simp [isP, init_pe]

theorem not_isP_zero : ¬ isP Pe.zero := by simp [isP, Pe.zero]

/-- Two sub-2^48 addresses with the same four table indices select the
same page: the indices determine bits 12..47. -/
theorem pagePath_eq_imp_div (v w : Nat) (hv : v < 2 ^ 48) (hw : w < 2 ^ 48)
    (h : pagePath v = pagePath w) : v / 4096 = w / 4096 := by
  simp only [pagePath, linaddr, Prod.mk.injEq, Nat.shiftRight_eq_div_pow] at h
  obtain ⟨h39, h30, h21, h12⟩ := h
  norm_num at h39 h30 h21 h12 hv hw
  omega

/-- Distinct page-aligned sub-2^48 addresses have distinct index paths. -/
theorem pagePath_ne (v w : Nat) (hv : v < 2 ^ 48) (hw : w < 2 ^ 48)
    (hva : v % 4096 = 0) (hwa : w % 4096 = 0) (hne : v ≠ w) :
    pagePath v ≠ pagePath w := by
  intro h
  exact hne (by have := pagePath_eq_imp_div v w hv hw h; omega)

/-! ## Facts about the level predicate -/

theorem lv_zero (st : St) : Lv st 0 st.root := rfl

theorem lv_succ (st : St) (k a : Nat) :
    Lv st (k + 1) a ↔ ∃ b, Lv st k b ∧ ∃ i, isP (st.mem b i) ∧ childAddr (st.mem b i) = a :=
  Iff.rfl

/-- Levels are determined: a frame cannot be live at two different levels
(at or below 3) of a well-formed hierarchy. -/
theorem lv_unique (st : St) (hInv : PgInv st) (k k' a : Nat)
    (hk : k ≤ 3) (hk' : k' ≤ 3) (h : Lv st k a) (h' : Lv st k' a) : k = k' := by
  rcases Nat.lt_trichotomy k k' with hlt | heq | hgt
  · exact absurd h' (hInv.disj k k' hlt hk' a h)
  · exact heq
  · exact absurd h (hInv.disj k' k hgt hk a h')

/-- `Lv` only depends on the root and the table contents. -/
theorem lv_congr (st st' : St) (hroot : st'.root = st.root)
    (hmem : ∀ a i, st'.mem a i = st.mem a i) :
    ∀ k a, Lv st' k a ↔ Lv st k a := by
  intro k
  induction k with
  | zero => intro a; simp [Lv, hroot]
  | succ k ih =>
    intro a
    simp only [lv_succ, hmem]
    constructor
    · rintro ⟨b, hb, i, hP, hc⟩
      exact ⟨b, (ih b).mp hb, i, hP, hc⟩
    · rintro ⟨b, hb, i, hP, hc⟩
      exact ⟨b, (ih b).mpr hb, i, hP, hc⟩

/-! ## Pristine states -/

/-- A machine state whose every table is zeroed: the state right after
`memset(pml4, 0, ...)` when physical memory held no prior hierarchy. -/
def pristine (rt : Nat) (fr : List Nat) : St :=
  { root := rt, mem := fun _ _ => Pe.zero, free := fr,
    allocated := [], cr3 := 0, trace := [] }

theorem pristine_lv_empty (rt : Nat) (fr : List Nat) (k a : Nat) (hk : 1 ≤ k) :
    ¬ Lv (pristine rt fr) k a := by
  match k, hk with
  | k + 1, _ =>
    rintro ⟨b, _, i, hP, _⟩
    exact hP rfl

theorem pristine_inv (rt : Nat) (fr : List Nat) (hnd : fr.Nodup)
    (hgood : ∀ a ∈ fr, a % 4096 = 0 ∧ a < 2 ^ 52 ∧ a ≠ rt) :
    PgInv (pristine rt fr) := by
  refine ⟨?_, hnd, ?_, ?_, ?_, ?_, ?_, ?_⟩
  · intro a _ i; rfl
  · intro a ha; exact (hgood a ha).1
  · intro a ha; exact (hgood a ha).2.1
  · intro a ha k _ hLv
    match k with
    | 0 => exact (hgood a ha).2.2 hLv
    | k + 1 => exact pristine_lv_empty rt fr (k + 1) a (Nat.succ_le_succ (Nat.zero_le k)) hLv
  · intro k k' hlt _ a _ hLv
    exact pristine_lv_empty rt fr k' a (Nat.lt_of_le_of_lt (Nat.zero_le k) hlt) hLv
  · intro k _ b b' hb hb' i i' hP _ _
    exact absurd rfl hP.elim
  · intro k h1 _ a hLv
    exact absurd hLv (pristine_lv_empty rt fr k a h1)

theorem pristine_walk (rt : Nat) (fr : List Nat) (v : Nat) :
    walk (pristine rt fr) v = none := rfl

/-! ## Walk congruence: the walk only reads four locations -/

theorem walk_congr (st st' : St) (w : Nat) (e4 e3 e2 : Pe)
    (hr : st'.root = st.root)
    (he4 : e4 = st.mem st.root (linaddr w).pml4)
    (he3 : e3 = st.mem (childAddr e4) (linaddr w).pdpt)
    (he2 : e2 = st.mem (childAddr e3) (linaddr w).pd)
    (h4 : st'.mem st.root (linaddr w).pml4 = e4)
    (h3 : isP e4 → st'.mem (childAddr e4) (linaddr w).pdpt = e3)
    (h2 : isP e4 → isP e3 → st'.mem (childAddr e3) (linaddr w).pd = e2)
    (h1 : isP e4 → isP e3 → isP e2 →
      st'.mem (childAddr e2) (linaddr w).pt = st.mem (childAddr e2) (linaddr w).pt) :
    walk st' w = walk st w := by
  simp only [walk, hr, h4, ← he4]
  by_cases p4 : e4.p = 0
  · simp [p4]
  · simp only [if_neg p4]
    have hP4 : isP e4 := p4
    rw [h3 hP4, ← he3]
    by_cases p3 : e3.p = 0
    · simp [p3]
    · simp only [if_neg p3]
      have hP3 : isP e3 := p3
      rw [h2 hP4 hP3, ← he2]
      by_cases p2 : e2.p = 0
      · simp [p2]
      · simp only [if_neg p2]
        rw [h1 hP4 hP3 p2]

/-! ## The two branches of the walker -/

theorem writePe_same (m : Nat → Nat → Pe) (t i : Nat) (e : Pe) :
    writePe m t i e t i = e := by simp [writePe]

theorem writePe_other (m : Nat → Nat → Pe) (t i : Nat) (e : Pe) (a j : Nat)
    (h : ¬ (a = t ∧ j = i)) : writePe m t i e a j = m a j := by
  simp [writePe, h]

/-- Exhaustion inside `get_pm` halts with the state unchanged: the entry
is only written after a successful allocation. -/
theorem get_pm_err (st s : St) (t i : Nat) (h : get_pm st t i = .error s) :
    s = st := by
  simp only [get_pm, pgalloc] at h
  by_cases hp : (st.mem t i).p = 0
  · rw [if_pos hp] at h
    cases hf : st.free with
    | nil =>
      rw [hf] at h
      injection h with h'
      exact h'.symm
    | cons f rest =>
      rw [hf] at h
      cases h
  · rw [if_neg hp] at h
    cases h

/-- `get_pm` never touches the root address, CR3 or the trace. -/
theorem get_pm_frame (st : St) (t i c : Nat) (st1 : St)
    (h : get_pm st t i = .ok (c, st1)) :
    st1.root = st.root ∧ st1.cr3 = st.cr3 ∧ st1.trace = st.trace := by
  simp only [get_pm, pgalloc] at h
  by_cases hp : (st.mem t i).p = 0
  · rw [if_pos hp] at h
    cases hf : st.free with
    | nil =>
      rw [hf] at h
      cases h
    | cons f rest =>
      rw [hf] at h
      injection h with h'
      injection h' with h1 h2
      rw [← h2]
      exact ⟨rfl, rfl, rfl⟩
  · rw [if_neg hp] at h
    injection h with h'
    injection h' with h1 h2
    rw [← h2]
    exact ⟨rfl, rfl, rfl⟩

/-- Hit branch: a Present entry yields its decoded frame address; the
state is returned untouched. -/
theorem get_pm_hit (st : St) (t i : Nat) (h : isP (st.mem t i)) :
    get_pm st t i = .ok (childAddr (st.mem t i), st) := by
  simp only [get_pm, childAddr]
  rw [if_neg h]

/-- The state produced by the allocating branch of `get_pm`: the head of
the free list is linked into the entry; the frame's own contents are not
written. -/
def linkSt (st : St) (t i c : Nat) (r : List Nat) : St :=
  { st with mem := writePe st.mem t i (init_pe (st.mem t i) c),
            free := r, allocated := st.allocated ++ [c] }

theorem linkSt_root (st : St) (t i c : Nat) (r : List Nat) :
    (linkSt st t i c r).root = st.root := rfl

theorem get_pm_miss (st : St) (t i c : Nat) (r : List Nat)
    (hp : ¬ isP (st.mem t i)) (hf : st.free = c :: r) :
    get_pm st t i = .ok (c, linkSt st t i c r) := by
  have hp0 : (st.mem t i).p = 0 := Decidable.not_not.mp hp
  simp only [get_pm, pgalloc, hf, hp0, if_pos]
  rfl

theorem linkSt_mem (st : St) (t i c : Nat) (r : List Nat) (a j : Nat) :
    (linkSt st t i c r).mem a j
      = if a = t ∧ j = i then init_pe (st.mem t i) c else st.mem a j := rfl

/-- Linking a fresh zeroed frame `c` below the level-`k` table `t` adds
`c` as a level-`k+1` table and changes no other level membership. -/
theorem linkSt_lv (st : St) (k t i c : Nat) (r : List Nat)
    (hInv : PgInv st) (hk : k < 3) (ht : Lv st k t)
    (hp : ¬ isP (st.mem t i)) (hf : st.free = c :: r) :
    ∀ kk, kk ≤ 3 → ∀ a,
      Lv (linkSt st t i c r) kk a ↔ (Lv st kk a ∨ (kk = k + 1 ∧ a = c)) := by
  have hcmem_free : c ∈ st.free := by rw [hf]; exact List.mem_cons_self c r
  have hczero : ∀ j, st.mem c j = Pe.zero := hInv.freeZero c hcmem_free
  have hcfresh : ∀ kk, kk ≤ 3 → ¬ Lv st kk c := hInv.freeFresh c hcmem_free
  have hct : c ≠ t := fun h => hcfresh k (le_of_lt hk) (h ▸ ht)
  have hlink : childAddr (init_pe (st.mem t i) c) = c :=
    childAddr_init_pe _ c (hInv.freeAligned c hcmem_free) (hInv.freeBound c hcmem_free)
  intro kk
  induction kk with
  | zero =>
    intro _ a
    constructor
    · intro h; exact Or.inl h
    · rintro (h | ⟨h1, _⟩)
      · exact h
      · exact (Nat.succ_ne_zero k h1.symm).elim
  | succ kk ih =>
    intro hkk a
    have hkk3 : kk ≤ 3 := le_trans (Nat.le_succ kk) hkk
    constructor
    · rintro ⟨b, hb, j, hPj, hcj⟩
      rw [linkSt_mem] at hPj hcj
      rcases (ih hkk3 b).mp hb with hbst | ⟨hkkc, hbc⟩
      · by_cases hbtji : b = t ∧ j = i
        · rw [if_pos hbtji] at hPj hcj
          have hkeq : kk = k :=
            lv_unique st hInv kk k t hkk3 (le_of_lt hk) (hbtji.1 ▸ hbst) ht
          exact Or.inr ⟨by rw [hkeq], hcj.symm.trans hlink⟩
        · rw [if_neg hbtji] at hPj hcj
          exact Or.inl ⟨b, hbst, j, hPj, hcj⟩
      · exfalso
        rw [if_neg (fun hh => hct (hbc ▸ hh.1))] at hPj
        rw [hbc, hczero j] at hPj
        exact not_isP_zero hPj
    · rintro (⟨b, hbst, j, hPj, hcj⟩ | ⟨hkk1, hac⟩)
      · have hbtji : ¬ (b = t ∧ j = i) := by
          rintro ⟨h1, h2⟩
          exact hp (h1 ▸ h2 ▸ hPj)
        refine ⟨b, (ih hkk3 b).mpr (Or.inl hbst), j, ?_, ?_⟩
        · rw [linkSt_mem, if_neg hbtji]; exact hPj
        · rw [linkSt_mem, if_neg hbtji]; exact hcj
      · have hkeq : kk = k := Nat.succ_injective hkk1
        subst hac
        refine ⟨t, (ih hkk3 t).mpr (Or.inl (by rw [hkeq]; exact ht)), i, ?_, ?_⟩
        · rw [linkSt_mem, if_pos ⟨rfl, rfl⟩]; exact isP_init_pe _ _
        · rw [linkSt_mem, if_pos ⟨rfl, rfl⟩]; exact hlink

/-- Linking a fresh frame preserves the paging invariant. -/
theorem linkSt_inv (st : St) (k t i c : Nat) (r : List Nat)
    (hInv : PgInv st) (hk : k < 3) (ht : Lv st k t)
    (hp : ¬ isP (st.mem t i)) (hf : st.free = c :: r) :
    PgInv (linkSt st t i c r) := by
  have hchar := linkSt_lv st k t i c r hInv hk ht hp hf
  have hcmem_free : c ∈ st.free := by rw [hf]; exact List.mem_cons_self c r
  have hczero : ∀ j, st.mem c j = Pe.zero := hInv.freeZero c hcmem_free
  have hcfresh : ∀ kk, kk ≤ 3 → ¬ Lv st kk c := hInv.freeFresh c hcmem_free
  have hct : c ≠ t := fun h => hcfresh k (le_of_lt hk) (h ▸ ht)
  have hlink : childAddr (init_pe (st.mem t i) c) = c :=
    childAddr_init_pe _ c (hInv.freeAligned c hcmem_free) (hInv.freeBound c hcmem_free)
  have hfr : ∀ a ∈ r, a ∈ st.free := by
    intro a ha; rw [hf]; exact List.mem_cons_of_mem c ha
  have hnd : (c :: r).Nodup := hf ▸ hInv.freeNodup
  have hcr : c ∉ r := (List.nodup_cons.mp hnd).1
  have hrnd : r.Nodup := (List.nodup_cons.mp hnd).2
  have hmemeq : ∀ a j, ¬ (a = t ∧ j = i) →
      (linkSt st t i c r).mem a j = st.mem a j := by
    intro a j hne; rw [linkSt_mem, if_neg hne]
  refine ⟨?_, hrnd, ?_, ?_, ?_, ?_, ?_, ?_⟩
  · intro a ha j
    have hat : a ≠ t := fun h =>
      hInv.freeFresh a (hfr a ha) k (le_of_lt hk) (h ▸ ht)
    rw [hmemeq a j (fun hh => hat hh.1)]
    exact hInv.freeZero a (hfr a ha) j
  · intro a ha; exact hInv.freeAligned a (hfr a ha)
  · intro a ha; exact hInv.freeBound a (hfr a ha)
  · intro a ha kk hkk hLv
    rcases (hchar kk hkk a).mp hLv with h1 | ⟨_, hac⟩
    · exact hInv.freeFresh a (hfr a ha) kk hkk h1
    · exact hcr (hac ▸ ha)
  · intro k1 k2 hlt hk2 a h1 h2
    have hk1 : k1 ≤ 3 := le_trans (le_of_lt hlt) hk2
    rcases (hchar k1 hk1 a).mp h1 with h1' | ⟨hke1, hac1⟩
    · rcases (hchar k2 hk2 a).mp h2 with h2' | ⟨hke2, hac2⟩
      · exact hInv.disj k1 k2 hlt hk2 a h1' h2'
      · exact hcfresh k1 hk1 (hac2 ▸ h1')
    · rcases (hchar k2 hk2 a).mp h2 with h2' | ⟨hke2, hac2⟩
      · exact hcfresh k2 hk2 (hac1 ▸ h2')
      · omega
  · intro k2 hk2 b b' hb hb' j j' hPj hPj' hcc
    have hk2' : k2 ≤ 3 := le_of_lt hk2
    have resolveParent : ∀ x jx, Lv (linkSt st t i c r) k2 x →
        isP ((linkSt st t i c r).mem x jx) → Lv st k2 x := by
      intro x jx hx hPx
      rcases (hchar k2 hk2' x).mp hx with hxst | ⟨_, hxc⟩
      · exact hxst
      · exfalso
        subst hxc
        rw [linkSt_mem, if_neg (fun hh => hct hh.1), hczero jx] at hPx
        exact not_isP_zero hPx
    have hbst := resolveParent b j hb hPj
    have hbst' := resolveParent b' j' hb' hPj'
    by_cases hbj : b = t ∧ j = i
    · by_cases hbj' : b' = t ∧ j' = i
      · exact ⟨hbj.1.trans hbj'.1.symm, hbj.2.trans hbj'.2.symm⟩
      · exfalso
        have e1 : (linkSt st t i c r).mem b j = init_pe (st.mem t i) c := by
          rw [linkSt_mem, if_pos hbj]
        have e2 : (linkSt st t i c r).mem b' j' = st.mem b' j' := hmemeq b' j' hbj'
        rw [e1, e2, hlink] at hcc
        rw [e2] at hPj'
        exact hcfresh (k2 + 1) (by omega) ⟨b', hbst', j', hPj', hcc.symm⟩
    · by_cases hbj' : b' = t ∧ j' = i
      · exfalso
        have e1 : (linkSt st t i c r).mem b j = st.mem b j := hmemeq b j hbj
        have e2 : (linkSt st t i c r).mem b' j' = init_pe (st.mem t i) c := by
          rw [linkSt_mem, if_pos hbj']
        rw [e1, e2, hlink] at hcc
        rw [e1] at hPj
        exact hcfresh (k2 + 1) (by omega) ⟨b, hbst, j, hPj, hcc⟩
      · have e1 : (linkSt st t i c r).mem b j = st.mem b j := hmemeq b j hbj
        have e2 : (linkSt st t i c r).mem b' j' = st.mem b' j' := hmemeq b' j' hbj'
        rw [e1] at hPj
        rw [e2] at hPj'
        rw [e1, e2] at hcc
        exact hInv.inj k2 hk2 b b' hbst hbst' j j' hPj hPj' hcc
  · intro kk h1 hkk a hLv
    rcases (hchar kk hkk a).mp hLv with h' | ⟨_, hac⟩
    · exact List.mem_append_left _ (hInv.allocd kk h1 hkk a h')
    · rw [hac]
      exact List.mem_append_right _ (List.mem_singleton_self c)

/-- Full postcondition of a successful `get_pm` on a live level-`k` parent:
the child is a live level-`k+1` table, the invariant is preserved, only
the one entry is written, at most one frame is consumed, and the two
branches are characterized. -/
structure GetPmOk (st : St) (k t i c : Nat) (st1 : St) : Prop where
  inv : PgInv st1
  lv : Lv st1 (k + 1) c
  root : st1.root = st.root
  cr3 : st1.cr3 = st.cr3
  trace : st1.trace = st.trace
  freeDrop : ∃ dk, dk ≤ 1 ∧ st1.free = st.free.drop dk
  present : isP (st1.mem t i)
  childEq : childAddr (st1.mem t i) = c
  delta : ∀ a j, ¬ (a = t ∧ j = i) → st1.mem a j = st.mem a j
  lvChar : ∀ kk a, kk ≤ 3 →
    (Lv st1 kk a ↔ (Lv st kk a ∨ (¬ isP (st.mem t i) ∧ kk = k + 1 ∧ a = c)))
  hitCase : isP (st.mem t i) → st1 = st ∧ c = childAddr (st.mem t i)
  missZero : ¬ isP (st.mem t i) → ∀ j, st.mem c j = Pe.zero
  missGood : ¬ isP (st.mem t i) → c % 4096 = 0 ∧ c < 2 ^ 52

theorem get_pm_spec (st : St) (k t i c : Nat) (st1 : St)
    (hInv : PgInv st) (hk : k < 3) (ht : Lv st k t)
    (h : get_pm st t i = .ok (c, st1)) : GetPmOk st k t i c st1 := by
  by_cases hp : isP (st.mem t i)
  · rw [get_pm_hit st t i hp] at h
    injection h with h'
    injection h' with h1 h2
    subst h2
    refine ⟨hInv, ⟨t, ht, i, hp, h1⟩, rfl, rfl, rfl, ⟨0, by omega, rfl⟩, hp, h1,
      fun a j _ => rfl, ?_, fun _ => ⟨rfl, h1.symm⟩,
      fun hnp => absurd hp hnp, fun hnp => absurd hp hnp⟩
    intro kk a _
    constructor
    · exact Or.inl
    · rintro (hh | ⟨hnp, _, _⟩)
      · exact hh
      · exact absurd hp hnp
  · cases hf : st.free with
    | nil =>
      exfalso
      have herr : get_pm st t i = .error st := by
        have hp0 : (st.mem t i).p = 0 := Decidable.not_not.mp hp
        simp only [get_pm, pgalloc, hf, hp0, if_pos]
      rw [herr] at h
      cases h
    | cons c0 r =>
      rw [get_pm_miss st t i c0 r hp hf] at h
      injection h with h'
      injection h' with h1 h2
      subst h1
      subst h2
      have hchar := linkSt_lv st k t i c0 r hInv hk ht hp hf
      have hinv1 := linkSt_inv st k t i c0 r hInv hk ht hp hf
      have hcmem_free : c0 ∈ st.free := by rw [hf]; exact List.mem_cons_self c0 r
      have hlink : childAddr (init_pe (st.mem t i) c0) = c0 :=
        childAddr_init_pe _ c0 (hInv.freeAligned c0 hcmem_free)
          (hInv.freeBound c0 hcmem_free)
      refine ⟨hinv1, ?_, rfl, rfl, rfl, ⟨1, le_refl 1, by rw [hf]; rfl⟩, ?_, ?_,
        ?_, ?_, fun hyp => absurd hyp hp,
        fun _ => hInv.freeZero c0 hcmem_free,
        fun _ => ⟨hInv.freeAligned c0 hcmem_free, hInv.freeBound c0 hcmem_free⟩⟩
      · exact (hchar (k + 1) (by omega) c0).mpr (Or.inr ⟨rfl, rfl⟩)
      · rw [linkSt_mem, if_pos ⟨rfl, rfl⟩]; exact isP_init_pe _ _
      · rw [linkSt_mem, if_pos ⟨rfl, rfl⟩]; exact hlink
      · intro a j hne; rw [linkSt_mem, if_neg hne]
      · intro kk a hkk
        rw [hchar kk hkk a]
        constructor
        · rintro (hh | ⟨h1, h2⟩)
          · exact Or.inl hh
          · exact Or.inr ⟨hp, h1, h2⟩
        · rintro (hh | ⟨_, h1, h2⟩)
          · exact Or.inl hh
          · exact Or.inr ⟨h1, h2⟩

/-! ## The leaf write -/

theorem map_page_pt_mem (st : St) (t vpa ppa a j : Nat) :
    (map_page_pt st t vpa ppa).mem a j
      = if a = t ∧ j = (linaddr vpa).pt
        then init_pe (st.mem t (linaddr vpa).pt) ppa else st.mem a j := rfl

/-- Writing a leaf entry into a live level-3 table changes no level
membership: PT entries are leaves, not table links. -/
theorem map_page_pt_lv (st : St) (t vpa ppa : Nat) (hInv : PgInv st)
    (ht : Lv st 3 t) :
    ∀ kk, kk ≤ 3 → ∀ a, Lv (map_page_pt st t vpa ppa) kk a ↔ Lv st kk a := by
  intro kk
  induction kk with
  | zero => intro _ a; exact Iff.rfl
  | succ kk ih =>
    intro hkk a
    have hkk3 : kk ≤ 3 := le_trans (Nat.le_succ kk) hkk
    have hbt : ∀ b, Lv st kk b → b ≠ t := by
      intro b hbst hbteq
      have := lv_unique st hInv kk 3 t hkk3 (le_refl 3) (hbteq ▸ hbst) ht
      omega
    constructor
    · rintro ⟨b, hb, j, hPj, hcj⟩
      have hbst := (ih hkk3 b).mp hb
      rw [map_page_pt_mem, if_neg (fun hh => hbt b hbst hh.1)] at hPj hcj
      exact ⟨b, hbst, j, hPj, hcj⟩
    · rintro ⟨b, hbst, j, hPj, hcj⟩
      refine ⟨b, (ih hkk3 b).mpr hbst, j, ?_, ?_⟩
      · rw [map_page_pt_mem, if_neg (fun hh => hbt b hbst hh.1)]; exact hPj
      · rw [map_page_pt_mem, if_neg (fun hh => hbt b hbst hh.1)]; exact hcj

/-- Writing a leaf entry preserves the paging invariant. -/
theorem map_page_pt_inv (st : St) (t vpa ppa : Nat) (hInv : PgInv st)
    (ht : Lv st 3 t) : PgInv (map_page_pt st t vpa ppa) := by
  have hchar := map_page_pt_lv st t vpa ppa hInv ht
  have hbt : ∀ b kk, kk ≤ 2 → Lv st kk b → b ≠ t := by
    intro b kk hkk hbst hbteq
    have := lv_unique st hInv kk 3 t (by omega) (le_refl 3) (hbteq ▸ hbst) ht
    omega
  refine ⟨?_, hInv.freeNodup, hInv.freeAligned, hInv.freeBound, ?_, ?_, ?_, ?_⟩
  · intro a ha j
    have hat : a ≠ t := fun h => hInv.freeFresh a ha 3 (le_refl 3) (h ▸ ht)
    rw [map_page_pt_mem, if_neg (fun hh => hat hh.1)]
    exact hInv.freeZero a ha j
  · intro a ha kk hkk hLv
    exact hInv.freeFresh a ha kk hkk ((hchar kk hkk a).mp hLv)
  · intro k1 k2 hlt hk2 a h1 h2
    exact hInv.disj k1 k2 hlt hk2 a
      ((hchar k1 (le_trans (le_of_lt hlt) hk2) a).mp h1)
      ((hchar k2 hk2 a).mp h2)
  · intro k2 hk2 b b' hb hb' j j' hPj hPj' hcc
    have hbst := (hchar k2 (le_of_lt hk2) b).mp hb
    have hbst' := (hchar k2 (le_of_lt hk2) b').mp hb'
    have hne : b ≠ t := hbt b k2 (by omega) hbst
    have hne' : b' ≠ t := hbt b' k2 (by omega) hbst'
    rw [map_page_pt_mem, if_neg (fun hh => hne hh.1)] at hPj hcc
    rw [map_page_pt_mem, if_neg (fun hh => hne' hh.1)] at hPj' hcc
    exact hInv.inj k2 hk2 b b' hbst hbst' j j' hPj hPj' hcc
  · intro kk h1 hkk a hLv
    exact hInv.allocd kk h1 hkk a ((hchar kk hkk a).mp hLv)

/-! ## Destructuring the mapping chain -/

theorem get_pm_free (st : St) (t i c : Nat) (st1 : St)
    (h : get_pm st t i = .ok (c, st1)) :
    st1.free = st.free ∨ st1.free = st.free.drop 1 := by
  by_cases hp : isP (st.mem t i)
  · rw [get_pm_hit st t i hp] at h
    injection h with h'
    injection h' with h1 h2
    rw [← h2]
    exact Or.inl rfl
  · cases hf : st.free with
    | nil =>
      exfalso
      have herr : get_pm st t i = .error st := by
        have hp0 : (st.mem t i).p = 0 := Decidable.not_not.mp hp
        simp only [get_pm, pgalloc, hf, hp0, if_pos]
      rw [herr] at h
      cases h
    | cons c0 r =>
      rw [get_pm_miss st t i c0 r hp hf] at h
      injection h with h'
      injection h' with h1 h2
      rw [← h2]
      exact Or.inr rfl

theorem get_pm_progress (st : St) (t i : Nat)
    (h : st.free ≠ [] ∨ isP (st.mem t i)) :
    ∃ c st1, get_pm st t i = .ok (c, st1) := by
  by_cases hp : isP (st.mem t i)
  · exact ⟨_, _, get_pm_hit st t i hp⟩
  · cases hf : st.free with
    | nil =>
      rcases h with h | h
      · exact absurd hf h
      · exact absurd h hp
    | cons c0 r =>
      exact ⟨c0, _, get_pm_miss st t i c0 r hp hf⟩

theorem map_page_pml4_dest (st st' : St) (v p : Nat)
    (h : map_page_pml4 st v p = .ok st') :
    ∃ A3 st1, get_pm st st.root (linaddr v).pml4 = .ok (A3, st1) ∧
      map_page_pdpt st1 A3 v p = .ok st' := by
  unfold map_page_pml4 at h
  cases hg : get_pm st st.root (linaddr v).pml4 with
  | error s => rw [hg] at h; simp at h
  | ok pr =>
    obtain ⟨A3, st1⟩ := pr
    rw [hg] at h
    exact ⟨A3, st1, rfl, h⟩

theorem map_page_pdpt_dest (st : St) (pdpt : Nat) (st' : St) (v p : Nat)
    (h : map_page_pdpt st pdpt v p = .ok st') :
    ∃ A2 st1, get_pm st pdpt (linaddr v).pdpt = .ok (A2, st1) ∧
      map_page_pd st1 A2 v p = .ok st' := by
  unfold map_page_pdpt at h
  cases hg : get_pm st pdpt (linaddr v).pdpt with
  | error s => rw [hg] at h; simp at h
  | ok pr =>
    obtain ⟨A2, st1⟩ := pr
    rw [hg] at h
    exact ⟨A2, st1, rfl, h⟩

theorem map_page_pd_dest (st : St) (pd : Nat) (st' : St) (v p : Nat)
    (h : map_page_pd st pd v p = .ok st') :
    ∃ A1 st1, get_pm st pd (linaddr v).pd = .ok (A1, st1) ∧
      st' = map_page_pt st1 A1 v p := by
  unfold map_page_pd at h
  cases hg : get_pm st pd (linaddr v).pd with
  | error s => rw [hg] at h; simp at h
  | ok pr =>
    obtain ⟨A1, st1⟩ := pr
    rw [hg] at h
    injection h with h'
    exact ⟨A1, st1, rfl, h'.symm⟩

/-- Reduction equations for the mapping chain. -/
theorem map_page_pml4_eq (st : St) (v p A3 : Nat) (st1 : St)
    (hg : get_pm st st.root (linaddr v).pml4 = .ok (A3, st1)) :
    map_page_pml4 st v p = map_page_pdpt st1 A3 v p := by
  unfold map_page_pml4; rw [hg]

theorem map_page_pml4_eq_err (st s : St) (v p : Nat)
    (hg : get_pm st st.root (linaddr v).pml4 = .error s) :
    map_page_pml4 st v p = .error s := by
  unfold map_page_pml4; rw [hg]

theorem map_page_pdpt_eq (st : St) (pdpt v p A2 : Nat) (st1 : St)
    (hg : get_pm st pdpt (linaddr v).pdpt = .ok (A2, st1)) :
    map_page_pdpt st pdpt v p = map_page_pd st1 A2 v p := by
  unfold map_page_pdpt; rw [hg]

theorem map_page_pdpt_eq_err (st s : St) (pdpt v p : Nat)
    (hg : get_pm st pdpt (linaddr v).pdpt = .error s) :
    map_page_pdpt st pdpt v p = .error s := by
  unfold map_page_pdpt; rw [hg]

theorem map_page_pd_eq (st : St) (pd v p A1 : Nat) (st1 : St)
    (hg : get_pm st pd (linaddr v).pd = .ok (A1, st1)) :
    map_page_pd st pd v p = .ok (map_page_pt st1 A1 v p) := by
  unfold map_page_pd; rw [hg]

theorem map_page_pd_eq_err (st s : St) (pd v p : Nat)
    (hg : get_pm st pd (linaddr v).pd = .error s) :
    map_page_pd st pd v p = .error s := by
  unfold map_page_pd; rw [hg]

/-- A failing mapping step halts with a state that still satisfies the
paging invariant: the only mutation before the halt point is complete,
already-linked structure. -/
theorem map_page_err (st s : St) (v p : Nat) (hInv : PgInv st)
    (h : map_page_pml4 st v p = .error s) : PgInv s := by
  cases hg1 : get_pm st st.root (linaddr v).pml4 with
  | error s1 =>
    rw [map_page_pml4_eq_err st s1 v p hg1] at h
    injection h with h'
    rw [← h', get_pm_err st s1 _ _ hg1]
    exact hInv
  | ok pr1 =>
    obtain ⟨A3, st1⟩ := pr1
    rw [map_page_pml4_eq st v p A3 st1 hg1] at h
    have s1 := get_pm_spec st 0 st.root (linaddr v).pml4 A3 st1 hInv (by omega)
      (lv_zero st) hg1
    cases hg2 : get_pm st1 A3 (linaddr v).pdpt with
    | error s2 =>
      rw [map_page_pdpt_eq_err st1 s2 A3 v p hg2] at h
      injection h with h'
      rw [← h', get_pm_err st1 s2 _ _ hg2]
      exact s1.inv
    | ok pr2 =>
      obtain ⟨A2, st2⟩ := pr2
      rw [map_page_pdpt_eq st1 A3 v p A2 st2 hg2] at h
      have s2 := get_pm_spec st1 1 A3 (linaddr v).pdpt A2 st2 s1.inv (by omega)
        s1.lv hg2
      cases hg3 : get_pm st2 A2 (linaddr v).pd with
      | error s3 =>
        rw [map_page_pd_eq_err st2 s3 A2 v p hg3] at h
        injection h with h'
        rw [← h', get_pm_err st2 s3 _ _ hg3]
        exact s2.inv
      | ok pr3 =>
        obtain ⟨A1, st3⟩ := pr3
        rw [map_page_pd_eq st2 A2 v p A1 st3 hg3] at h
        cases h

/-- With at least three frames available the mapping of one page cannot
hit allocator exhaustion. -/
theorem map_page_progress (st : St) (v p : Nat) (hfree : 3 ≤ st.free.length) :
    ∃ st', map_page_pml4 st v p = .ok st' := by
  obtain ⟨A3, st1, hg1⟩ := get_pm_progress st st.root (linaddr v).pml4
    (Or.inl (by intro hh; rw [hh] at hfree; simp at hfree))
  have hl1 : 2 ≤ st1.free.length := by
    rcases get_pm_free st _ _ A3 st1 hg1 with hh | hh
    · rw [hh]; omega
    · rw [hh, List.length_drop]; omega
  obtain ⟨A2, st2, hg2⟩ := get_pm_progress st1 A3 (linaddr v).pdpt
    (Or.inl (by intro hh; rw [hh] at hl1; simp at hl1))
  have hl2 : 1 ≤ st2.free.length := by
    rcases get_pm_free st1 _ _ A2 st2 hg2 with hh | hh
    · rw [hh]; omega
    · rw [hh, List.length_drop]; omega
  obtain ⟨A1, st3, hg3⟩ := get_pm_progress st2 A2 (linaddr v).pd
    (Or.inl (by intro hh; rw [hh] at hl2; simp at hl2))
  exact ⟨map_page_pt st3 A1 v p,
    (map_page_pml4_eq st v p A3 st1 hg1).trans
      ((map_page_pdpt_eq st1 A3 v p A2 st2 hg2).trans
        (map_page_pd_eq st2 A2 v p A1 st3 hg3))⟩

/-- Full postcondition of successfully mapping one page: the invariant is
preserved, one `mapWrite` event is emitted, at most three frames are
consumed, the walk of `v` now yields the stored frame address of `p`, and
the walk of every linear address with a different index path is
unchanged. -/
structure MapPageOk (st : St) (v p : Nat) (st' : St) : Prop where
  inv : PgInv st'
  root : st'.root = st.root
  cr3 : st'.cr3 = st.cr3
  trace : st'.trace = st.trace ++ [Ev.mapWrite]
  freeDrop : ∃ dk, dk ≤ 3 ∧ st'.free = st.free.drop dk
  walkNew : walk st' v = some (frameOf p)
  walkOld : ∀ w, pagePath w ≠ pagePath v → walk st' w = walk st w

theorem map_page_spec (st st' : St) (v p : Nat) (hInv : PgInv st)
    (h : map_page_pml4 st v p = .ok st') : MapPageOk st v p st' := by
  obtain ⟨A3, st1, hg1, h⟩ := map_page_pml4_dest st st' v p h
  obtain ⟨A2, st2, hg2, h⟩ := map_page_pdpt_dest st1 A3 st' v p h
  obtain ⟨A1, st3, hg3, hleaf⟩ := map_page_pd_dest st2 A2 st' v p h
  have s1 := get_pm_spec st 0 st.root (linaddr v).pml4 A3 st1 hInv (by omega)
    (lv_zero st) hg1
  have s2 := get_pm_spec st1 1 A3 (linaddr v).pdpt A2 st2 s1.inv (by omega)
    s1.lv hg2
  have s3 := get_pm_spec st2 2 A2 (linaddr v).pd A1 st3 s2.inv (by omega)
    s2.lv hg3
  have hmem' : ∀ a j, st'.mem a j
      = if a = A1 ∧ j = (linaddr v).pt
        then init_pe (st3.mem A1 (linaddr v).pt) p else st3.mem a j := by
    intro a j; rw [hleaf]; rfl
  have hroot : st'.root = st.root := by
    rw [hleaf]
    show st3.root = st.root
    rw [s3.root, s2.root, s1.root]
  have inv' : PgInv st' := by
    rw [hleaf]; exact map_page_pt_inv st3 A1 v p s3.inv s3.lv
  have hch4 : ∀ kk, kk ≤ 3 → ∀ a, Lv st' kk a ↔ Lv st3 kk a := by
    rw [hleaf]; exact map_page_pt_lv st3 A1 v p s3.inv s3.lv
  have up1 : ∀ kk a, kk ≤ 3 → Lv st kk a → Lv st1 kk a := fun kk a hkk hh =>
    (s1.lvChar kk a hkk).mpr (Or.inl hh)
  have up2 : ∀ kk a, kk ≤ 3 → Lv st1 kk a → Lv st2 kk a := fun kk a hkk hh =>
    (s2.lvChar kk a hkk).mpr (Or.inl hh)
  have up3 : ∀ kk a, kk ≤ 3 → Lv st2 kk a → Lv st3 kk a := fun kk a hkk hh =>
    (s3.lvChar kk a hkk).mpr (Or.inl hh)
  have hmono : ∀ kk a, kk ≤ 3 → Lv st kk a → Lv st' kk a :=
    fun kk a hkk hh => (hch4 kk hkk a).mpr (up3 kk a hkk (up2 kk a hkk (up1 kk a hkk hh)))
  have hA3L : Lv st' 1 A3 :=
    (hch4 1 (by omega) A3).mpr (up3 1 A3 (by omega) (up2 1 A3 (by omega) s1.lv))
  have hA2L : Lv st' 2 A2 := (hch4 2 (by omega) A2).mpr (up3 2 A2 (by omega) s2.lv)
  have hA1L : Lv st' 3 A1 := (hch4 3 (by omega) A1).mpr s3.lv
  have hrootL : Lv st' 0 st.root := hroot.symm
  have n01 : st.root ≠ A3 := fun hh =>
    inv'.disj 0 1 (by omega) (by omega) st.root hrootL (by rw [hh]; exact hA3L)
  have n02 : st.root ≠ A2 := fun hh =>
    inv'.disj 0 2 (by omega) (by omega) st.root hrootL (by rw [hh]; exact hA2L)
  have n03 : st.root ≠ A1 := fun hh =>
    inv'.disj 0 3 (by omega) (by omega) st.root hrootL (by rw [hh]; exact hA1L)
  have n12 : A3 ≠ A2 := fun hh =>
    inv'.disj 1 2 (by omega) (by omega) A3 hA3L (by rw [hh]; exact hA2L)
  have n13 : A3 ≠ A1 := fun hh =>
    inv'.disj 1 3 (by omega) (by omega) A3 hA3L (by rw [hh]; exact hA1L)
  have n23 : A2 ≠ A1 := fun hh =>
    inv'.disj 2 3 (by omega) (by omega) A2 hA2L (by rw [hh]; exact hA1L)
  have hdelta : ∀ a j, ¬ (a = st.root ∧ j = (linaddr v).pml4) →
      ¬ (a = A3 ∧ j = (linaddr v).pdpt) → ¬ (a = A2 ∧ j = (linaddr v).pd) →
      ¬ (a = A1 ∧ j = (linaddr v).pt) → st'.mem a j = st.mem a j := by
    intro a j h1 h2 h3 h4
    rw [hmem' a j, if_neg h4, s3.delta a j h3, s2.delta a j h2, s1.delta a j h1]
  have v41 : st'.mem st.root (linaddr v).pml4 = st1.mem st.root (linaddr v).pml4 := by
    rw [hmem' _ _, if_neg (fun hh => n03 hh.1), s3.delta _ _ (fun hh => n02 hh.1),
      s2.delta _ _ (fun hh => n01 hh.1)]
  have v32 : st'.mem A3 (linaddr v).pdpt = st2.mem A3 (linaddr v).pdpt := by
    rw [hmem' _ _, if_neg (fun hh => n13 hh.1), s3.delta _ _ (fun hh => n12 hh.1)]
  have v23 : st'.mem A2 (linaddr v).pd = st3.mem A2 (linaddr v).pd := by
    rw [hmem' _ _, if_neg (fun hh => n23 hh.1)]
  have e4P : isP (st'.mem st.root (linaddr v).pml4) := by rw [v41]; exact s1.present
  have e4C : childAddr (st'.mem st.root (linaddr v).pml4) = A3 := by
    rw [v41]; exact s1.childEq
  have e3P : isP (st'.mem A3 (linaddr v).pdpt) := by rw [v32]; exact s2.present
  have e3C : childAddr (st'.mem A3 (linaddr v).pdpt) = A2 := by
    rw [v32]; exact s2.childEq
  have e2P : isP (st'.mem A2 (linaddr v).pd) := by rw [v23]; exact s3.present
  have e2C : childAddr (st'.mem A2 (linaddr v).pd) = A1 := by
    rw [v23]; exact s3.childEq
  have e1V : st'.mem A1 (linaddr v).pt = init_pe (st3.mem A1 (linaddr v).pt) p := by
    rw [hmem' _ _, if_pos ⟨rfl, rfl⟩]
  have e1P : isP (st'.mem A1 (linaddr v).pt) := by rw [e1V]; exact isP_init_pe _ _
  have e1C : childAddr (st'.mem A1 (linaddr v).pt) = frameOf p := by
    rw [e1V]; exact childAddr_init_pe_frameOf _ _
  refine ⟨inv', hroot, ?_, ?_, ?_, ?_, ?_⟩
  · rw [hleaf]
    show st3.cr3 = st.cr3
    rw [s3.cr3, s2.cr3, s1.cr3]
  · rw [hleaf]
    show st3.trace ++ [Ev.mapWrite] = st.trace ++ [Ev.mapWrite]
    rw [s3.trace, s2.trace, s1.trace]
  · obtain ⟨d1, hd1, q1⟩ := s1.freeDrop
    obtain ⟨d2, hd2, q2⟩ := s2.freeDrop
    obtain ⟨d3, hd3, q3⟩ := s3.freeDrop
    refine ⟨d1 + (d2 + d3), by omega, ?_⟩
    rw [hleaf]
    show st3.free = st.free.drop (d1 + (d2 + d3))
    rw [q3, q2, q1, List.drop_drop, List.drop_drop]
  · show walk st' v = some (frameOf p)
    simp only [walk]
    rw [hroot, if_neg e4P, e4C, if_neg e3P, e3C, if_neg e2P, e2C, if_neg e1P, e1C]
  · intro w hpw
    have hppv : ¬ ((linaddr w).pml4 = (linaddr v).pml4 ∧
        (linaddr w).pdpt = (linaddr v).pdpt ∧
        (linaddr w).pd = (linaddr v).pd ∧ (linaddr w).pt = (linaddr v).pt) := by
      rintro ⟨a1, a2, a3, a4⟩
      exact hpw (by simp only [pagePath, a1, a2, a3, a4])
    have hstdisj01 : ∀ a, Lv st 1 a → a ≠ st.root := fun a ha hh =>
      hInv.disj 0 1 (by omega) (by omega) st.root rfl (hh ▸ ha)
    have hstdisj02 : ∀ a, Lv st 2 a → a ≠ st.root := fun a ha hh =>
      hInv.disj 0 2 (by omega) (by omega) st.root rfl (hh ▸ ha)
    have hstdisj03 : ∀ a, Lv st 3 a → a ≠ st.root := fun a ha hh =>
      hInv.disj 0 3 (by omega) (by omega) st.root rfl (hh ▸ ha)
    have hndA2 : ∀ a, Lv st 1 a → a ≠ A2 := fun a ha hh =>
      inv'.disj 1 2 (by omega) (by omega) a (hmono 1 a (by omega) ha)
        (by rw [hh]; exact hA2L)
    have hndA1_1 : ∀ a, Lv st 1 a → a ≠ A1 := fun a ha hh =>
      inv'.disj 1 3 (by omega) (by omega) a (hmono 1 a (by omega) ha)
        (by rw [hh]; exact hA1L)
    have hndA1_2 : ∀ a, Lv st 2 a → a ≠ A1 := fun a ha hh =>
      inv'.disj 2 3 (by omega) (by omega) a (hmono 2 a (by omega) ha)
        (by rw [hh]; exact hA1L)
    have hndA3_2 : ∀ a, Lv st 2 a → a ≠ A3 := fun a ha hh =>
      inv'.disj 1 2 (by omega) (by omega) A3 hA3L
        (by rw [← hh]; exact hmono 2 a (by omega) ha)
    have hndA3_3 : ∀ a, Lv st 3 a → a ≠ A3 := fun a ha hh =>
      inv'.disj 1 3 (by omega) (by omega) A3 hA3L
        (by rw [← hh]; exact hmono 3 a (by omega) ha)
    have hndA2' : ∀ a, Lv st 3 a → a ≠ A2 := fun a ha hh =>
      inv'.disj 2 3 (by omega) (by omega) A2 hA2L
        (by rw [← hh]; exact hmono 3 a (by omega) ha)
    have hinj0 : ∀ j, isP (st.mem st.root j) →
        childAddr (st.mem st.root j) = A3 → j = (linaddr v).pml4 := by
      intro j hPj hCj
      by_cases hj : j = (linaddr v).pml4
      · exact hj
      · have hrd : st'.mem st.root j = st.mem st.root j :=
          hdelta st.root j (fun hh => hj hh.2) (fun hh => n01 hh.1)
            (fun hh => n02 hh.1) (fun hh => n03 hh.1)
        have := inv'.inj 0 (by omega) st.root st.root hrootL hrootL j
          (linaddr v).pml4 (by rw [hrd]; exact hPj) e4P (by rw [hrd, hCj, e4C])
        exact this.2
    have hinj1 : ∀ b j, Lv st 1 b → isP (st.mem b j) →
        st'.mem b j = st.mem b j → childAddr (st.mem b j) = A2 →
        b = A3 ∧ j = (linaddr v).pdpt := by
      intro b j hb hPj hrd hCj
      exact inv'.inj 1 (by omega) b A3 (hmono 1 b (by omega) hb) hA3L j
        (linaddr v).pdpt (by rw [hrd]; exact hPj) e3P (by rw [hrd, hCj, e3C])
    have hinj2 : ∀ b j, Lv st 2 b → isP (st.mem b j) →
        st'.mem b j = st.mem b j → childAddr (st.mem b j) = A1 →
        b = A2 ∧ j = (linaddr v).pd := by
      intro b j hb hPj hrd hCj
      exact inv'.inj 2 (by omega) b A2 (hmono 2 b (by omega) hb) hA2L j
        (linaddr v).pd (by rw [hrd]; exact hPj) e2P (by rw [hrd, hCj, e2C])
    by_cases h44 : (linaddr w).pml4 = (linaddr v).pml4
    · by_cases hP4 : isP (st.mem st.root (linaddr v).pml4)
      · obtain ⟨hst1eq, hA3eq⟩ := s1.hitCase hP4
        have hv4 : st'.mem st.root (linaddr v).pml4
            = st.mem st.root (linaddr v).pml4 := by rw [v41, hst1eq]
        by_cases h33 : (linaddr w).pdpt = (linaddr v).pdpt
        · by_cases hP3 : isP (st.mem A3 (linaddr v).pdpt)
          · obtain ⟨hst2eq, hA2eq⟩ := s2.hitCase (by rw [hst1eq]; exact hP3)
            have hA2eq' : A2 = childAddr (st.mem A3 (linaddr v).pdpt) := by
              rw [hA2eq, hst1eq]
            have hv3 : st'.mem A3 (linaddr v).pdpt
                = st.mem A3 (linaddr v).pdpt := by rw [v32, hst2eq, hst1eq]
            by_cases h22 : (linaddr w).pd = (linaddr v).pd
            · by_cases hP2 : isP (st.mem A2 (linaddr v).pd)
              · obtain ⟨hst3eq, hA1eq⟩ := s3.hitCase
                  (by rw [hst2eq, hst1eq]; exact hP2)
                have h11 : (linaddr w).pt ≠ (linaddr v).pt := fun hh =>
                  hppv ⟨h44, h33, h22, hh⟩
                have hdD : ∀ a j, ¬ (a = A1 ∧ j = (linaddr v).pt) →
                    st'.mem a j = st.mem a j := by
                  intro a j hne
                  rw [hmem' a j, if_neg hne, hst3eq, hst2eq, hst1eq]
                have hA1eq' : A1 = childAddr (st.mem A2 (linaddr v).pd) := by
                  rw [hA1eq, hst2eq, hst1eq]
                refine walk_congr st st' w _ _ _ hroot rfl rfl rfl ?_ ?_ ?_ ?_
                · exact hdD _ _ (fun hh => n03 hh.1)
                · intro hP4w
                  apply hdD
                  rintro ⟨hh, _⟩
                  rw [h44, ← hA3eq] at hh
                  exact n13 hh
                · intro hP4w hP3w
                  apply hdD
                  rintro ⟨hh, _⟩
                  rw [h44, ← hA3eq, h33, ← hA2eq'] at hh
                  exact n23 hh
                · intro hP4w hP3w hP2w
                  apply hdD
                  rintro ⟨_, hh⟩
                  exact h11 hh
              · have hP2m : ¬ isP (st2.mem A2 (linaddr v).pd) := by
                  rw [hst2eq, hst1eq]; exact hP2
                have hzA1 : ∀ j, st2.mem A1 j = Pe.zero := s3.missZero hP2m
                have h11 : (linaddr w).pt ≠ (linaddr v).pt := fun hh =>
                  hppv ⟨h44, h33, h22, hh⟩
                have hold : walk st w = none := by
                  simp only [walk]
                  rw [h44, if_neg hP4, ← hA3eq, h33, if_neg hP3, ← hA2eq', h22,
                    if_pos (not_not.mp hP2)]
                have hnew : walk st' w = none := by
                  simp only [walk]
                  rw [hroot, h44, if_neg e4P, e4C, h33, if_neg e3P, e3C, h22,
                    if_neg e2P, e2C]
                  have hrd : st'.mem A1 (linaddr w).pt
                      = st2.mem A1 (linaddr w).pt := by
                    rw [hmem' _ _, if_neg (fun hh => h11 hh.2),
                      s3.delta _ _ (fun hh => n23 hh.1.symm)]
                  rw [hrd, hzA1, if_pos (show Pe.zero.p = 0 from rfl)]
                rw [hnew, hold]
            · refine walk_congr st st' w _ _ _ hroot rfl rfl rfl ?_ ?_ ?_ ?_
              · rw [h44]; exact hv4
              · intro hP4w
                rw [h44, ← hA3eq, h33]
                exact hv3
              · intro hP4w hP3w
                rw [h44, ← hA3eq, h33, ← hA2eq']
                exact hdelta A2 _ (fun hh => n02 hh.1.symm)
                  (fun hh => n12 hh.1.symm) (fun hh => h22 hh.2)
                  (fun hh => n23 hh.1)
              · intro hP4w hP3w hP2w
                rw [h44, ← hA3eq, h33, ← hA2eq'] at hP2w ⊢
                have hA3st : Lv st 1 A3 :=
                  ⟨st.root, rfl, (linaddr v).pml4, hP4, hA3eq.symm⟩
                have hA2st : Lv st 2 A2 :=
                  ⟨A3, hA3st, (linaddr v).pdpt, hP3, hA2eq'.symm⟩
                have hB1 : Lv st 3 (childAddr (st.mem A2 (linaddr w).pd)) :=
                  ⟨A2, hA2st, (linaddr w).pd, hP2w, rfl⟩
                apply hdelta
                · rintro ⟨hh, _⟩; exact hstdisj03 _ hB1 hh
                · rintro ⟨hh, _⟩; exact hndA3_3 _ hB1 hh
                · rintro ⟨hh, _⟩; exact hndA2' _ hB1 hh
                · rintro ⟨hh, _⟩
                  have hrd : st'.mem A2 (linaddr w).pd
                      = st.mem A2 (linaddr w).pd :=
                    hdelta A2 _ (fun h2 => n02 h2.1.symm)
                      (fun h2 => n12 h2.1.symm) (fun h2 => h22 h2.2)
                      (fun h2 => n23 h2.1)
                  exact h22 (hinj2 A2 (linaddr w).pd hA2st hP2w hrd hh).2
          · have hP3m : ¬ isP (st1.mem A3 (linaddr v).pdpt) := by
              rw [hst1eq]; exact hP3
            have hzA2 : ∀ j, st1.mem A2 j = Pe.zero := s2.missZero hP3m
            have hold : walk st w = none := by
              simp only [walk]
              rw [h44, if_neg hP4, ← hA3eq, h33, if_pos (not_not.mp hP3)]
            have hnew : walk st' w = none := by
              simp only [walk]
              rw [hroot, h44, if_neg e4P, e4C, h33, if_neg e3P, e3C]
              by_cases h22 : (linaddr w).pd = (linaddr v).pd
              · rw [h22, if_neg e2P, e2C]
                have h11 : (linaddr w).pt ≠ (linaddr v).pt := fun hh =>
                  hppv ⟨h44, h33, h22, hh⟩
                have hP2m : ¬ isP (st2.mem A2 (linaddr v).pd) := by
                  rw [s2.delta A2 (linaddr v).pd (fun hh => n12 hh.1.symm), hzA2]
                  exact not_isP_zero
                have hzA1 : ∀ j, st2.mem A1 j = Pe.zero := s3.missZero hP2m
                have hrd : st'.mem A1 (linaddr w).pt
                    = st2.mem A1 (linaddr w).pt := by
                  rw [hmem' _ _, if_neg (fun hh => h11 hh.2),
                    s3.delta _ _ (fun hh => n23 hh.1.symm)]
                rw [hrd, hzA1, if_pos (show Pe.zero.p = 0 from rfl)]
              · have hrd : st'.mem A2 (linaddr w).pd
                    = st1.mem A2 (linaddr w).pd := by
                  rw [hmem' _ _, if_neg (fun hh => n23 hh.1),
                    s3.delta _ _ (fun hh => h22 hh.2),
                    s2.delta _ _ (fun hh => n12 hh.1.symm)]
                rw [hrd, hzA2, if_pos (show Pe.zero.p = 0 from rfl)]
            rw [hnew, hold]
        · refine walk_congr st st' w _ _ _ hroot rfl rfl rfl ?_ ?_ ?_ ?_
          · rw [h44]; exact hv4
          · intro hP4w
            rw [h44, ← hA3eq]
            exact hdelta A3 _ (fun hh => n01 hh.1.symm) (fun hh => h33 hh.2)
              (fun hh => n12 hh.1) (fun hh => n13 hh.1)
          · intro hP4w hP3w
            rw [h44, ← hA3eq] at hP3w ⊢
            have hA3st : Lv st 1 A3 :=
              ⟨st.root, rfl, (linaddr v).pml4, hP4, hA3eq.symm⟩
            have hB2 : Lv st 2 (childAddr (st.mem A3 (linaddr w).pdpt)) :=
              ⟨A3, hA3st, (linaddr w).pdpt, hP3w, rfl⟩
            apply hdelta
            · rintro ⟨hh, _⟩; exact hstdisj02 _ hB2 hh
            · rintro ⟨hh, _⟩; exact hndA3_2 _ hB2 hh
            · rintro ⟨hh, _⟩
              have hrd : st'.mem A3 (linaddr w).pdpt
                  = st.mem A3 (linaddr w).pdpt :=
                hdelta A3 _ (fun h2 => n01 h2.1.symm) (fun h2 => h33 h2.2)
                  (fun h2 => n12 h2.1) (fun h2 => n13 h2.1)
              exact h33 (hinj1 A3 (linaddr w).pdpt hA3st hP3w hrd hh).2
            · rintro ⟨hh, _⟩; exact hndA1_2 _ hB2 hh
          · intro hP4w hP3w hP2w
            rw [h44, ← hA3eq] at hP3w hP2w ⊢
            have hA3st : Lv st 1 A3 :=
              ⟨st.root, rfl, (linaddr v).pml4, hP4, hA3eq.symm⟩
            have hB2 : Lv st 2 (childAddr (st.mem A3 (linaddr w).pdpt)) :=
              ⟨A3, hA3st, (linaddr w).pdpt, hP3w, rfl⟩
            have hB1 : Lv st 3 (childAddr (st.mem
                (childAddr (st.mem A3 (linaddr w).pdpt)) (linaddr w).pd)) :=
              ⟨_, hB2, (linaddr w).pd, hP2w, rfl⟩
            apply hdelta
            · rintro ⟨hh, _⟩; exact hstdisj03 _ hB1 hh
            · rintro ⟨hh, _⟩; exact hndA3_3 _ hB1 hh
            · rintro ⟨hh, _⟩; exact hndA2' _ hB1 hh
            · rintro ⟨hh, _⟩
              have hrdB3 : st'.mem A3 (linaddr w).pdpt
                  = st.mem A3 (linaddr w).pdpt :=
                hdelta A3 _ (fun h2 => n01 h2.1.symm) (fun h2 => h33 h2.2)
                  (fun h2 => n12 h2.1) (fun h2 => n13 h2.1)
              have hB2A2 : childAddr (st.mem A3 (linaddr w).pdpt) ≠ A2 :=
                fun h2 => h33 (hinj1 A3 (linaddr w).pdpt hA3st hP3w hrdB3 h2).2
              have hrdB2 : st'.mem (childAddr (st.mem A3 (linaddr w).pdpt))
                  (linaddr w).pd
                  = st.mem (childAddr (st.mem A3 (linaddr w).pdpt))
                    (linaddr w).pd :=
                hdelta _ _ (fun h2 => hstdisj02 _ hB2 h2.1)
                  (fun h2 => hndA3_2 _ hB2 h2.1) (fun h2 => hB2A2 h2.1)
                  (fun h2 => hndA1_2 _ hB2 h2.1)
              exact hB2A2 (hinj2 _ (linaddr w).pd hB2 hP2w hrdB2 hh).1
      · have hzA3 : ∀ j, st.mem A3 j = Pe.zero := s1.missZero hP4
        have hold : walk st w = none := by
          simp only [walk]
          rw [h44, if_pos (not_not.mp hP4)]
        have hnew : walk st' w = none := by
          simp only [walk]
          rw [hroot, h44, if_neg e4P, e4C]
          by_cases h33 : (linaddr w).pdpt = (linaddr v).pdpt
          · rw [h33, if_neg e3P, e3C]
            have hP3m : ¬ isP (st1.mem A3 (linaddr v).pdpt) := by
              rw [s1.delta A3 (linaddr v).pdpt (fun hh => n01 hh.1.symm), hzA3]
              exact not_isP_zero
            have hzA2 : ∀ j, st1.mem A2 j = Pe.zero := s2.missZero hP3m
            by_cases h22 : (linaddr w).pd = (linaddr v).pd
            · rw [h22, if_neg e2P, e2C]
              have h11 : (linaddr w).pt ≠ (linaddr v).pt := fun hh =>
                hppv ⟨h44, h33, h22, hh⟩
              have hP2m : ¬ isP (st2.mem A2 (linaddr v).pd) := by
                rw [s2.delta A2 (linaddr v).pd (fun hh => n12 hh.1.symm), hzA2]
                exact not_isP_zero
              have hzA1 : ∀ j, st2.mem A1 j = Pe.zero := s3.missZero hP2m
              have hrd : st'.mem A1 (linaddr w).pt
                  = st2.mem A1 (linaddr w).pt := by
                rw [hmem' _ _, if_neg (fun hh => h11 hh.2),
                  s3.delta _ _ (fun hh => n23 hh.1.symm)]
              rw [hrd, hzA1, if_pos (show Pe.zero.p = 0 from rfl)]
            · have hrd : st'.mem A2 (linaddr w).pd
                  = st1.mem A2 (linaddr w).pd := by
                rw [hmem' _ _, if_neg (fun hh => n23 hh.1),
                  s3.delta _ _ (fun hh => h22 hh.2),
                  s2.delta _ _ (fun hh => n12 hh.1.symm)]
              rw [hrd, hzA2, if_pos (show Pe.zero.p = 0 from rfl)]
          · have hrd : st'.mem A3 (linaddr w).pdpt
                = st.mem A3 (linaddr w).pdpt :=
              hdelta A3 _ (fun hh => n01 hh.1.symm) (fun hh => h33 hh.2)
                (fun hh => n12 hh.1) (fun hh => n13 hh.1)
            rw [hrd, hzA3, if_pos (show Pe.zero.p = 0 from rfl)]
        rw [hnew, hold]
    · refine walk_congr st st' w _ _ _ hroot rfl rfl rfl ?_ ?_ ?_ ?_
      · exact hdelta st.root _ (fun hh => h44 hh.2) (fun hh => n01 hh.1)
          (fun hh => n02 hh.1) (fun hh => n03 hh.1)
      · intro hP4w
        have hB3 : Lv st 1 (childAddr (st.mem st.root (linaddr w).pml4)) :=
          ⟨st.root, rfl, (linaddr w).pml4, hP4w, rfl⟩
        have hB3A3 : childAddr (st.mem st.root (linaddr w).pml4) ≠ A3 :=
          fun hh => h44 (hinj0 (linaddr w).pml4 hP4w hh)
        apply hdelta
        · rintro ⟨hh, _⟩; exact hstdisj01 _ hB3 hh
        · rintro ⟨hh, _⟩; exact hB3A3 hh
        · rintro ⟨hh, _⟩; exact hndA2 _ hB3 hh
        · rintro ⟨hh, _⟩; exact hndA1_1 _ hB3 hh
      · intro hP4w hP3w
        have hB3 : Lv st 1 (childAddr (st.mem st.root (linaddr w).pml4)) :=
          ⟨st.root, rfl, (linaddr w).pml4, hP4w, rfl⟩
        have hB3A3 : childAddr (st.mem st.root (linaddr w).pml4) ≠ A3 :=
          fun hh => h44 (hinj0 (linaddr w).pml4 hP4w hh)
        have hB2 : Lv st 2 (childAddr (st.mem
            (childAddr (st.mem st.root (linaddr w).pml4)) (linaddr w).pdpt)) :=
          ⟨_, hB3, (linaddr w).pdpt, hP3w, rfl⟩
        apply hdelta
        · rintro ⟨hh, _⟩; exact hstdisj02 _ hB2 hh
        · rintro ⟨hh, _⟩; exact hndA3_2 _ hB2 hh
        · rintro ⟨hh, _⟩
          have hrdB3 : st'.mem (childAddr (st.mem st.root (linaddr w).pml4))
              (linaddr w).pdpt
              = st.mem (childAddr (st.mem st.root (linaddr w).pml4))
                (linaddr w).pdpt :=
            hdelta _ _ (fun h2 => hstdisj01 _ hB3 h2.1) (fun h2 => hB3A3 h2.1)
              (fun h2 => hndA2 _ hB3 h2.1) (fun h2 => hndA1_1 _ hB3 h2.1)
          exact hB3A3 (hinj1 _ (linaddr w).pdpt hB3 hP3w hrdB3 hh).1
        · rintro ⟨hh, _⟩; exact hndA1_2 _ hB2 hh
      · intro hP4w hP3w hP2w
        have hB3 : Lv st 1 (childAddr (st.mem st.root (linaddr w).pml4)) :=
          ⟨st.root, rfl, (linaddr w).pml4, hP4w, rfl⟩
        have hB3A3 : childAddr (st.mem st.root (linaddr w).pml4) ≠ A3 :=
          fun hh => h44 (hinj0 (linaddr w).pml4 hP4w hh)
        have hB2 : Lv st 2 (childAddr (st.mem
            (childAddr (st.mem st.root (linaddr w).pml4)) (linaddr w).pdpt)) :=
          ⟨_, hB3, (linaddr w).pdpt, hP3w, rfl⟩
        have hB1 : Lv st 3 (childAddr (st.mem (childAddr (st.mem
            (childAddr (st.mem st.root (linaddr w).pml4)) (linaddr w).pdpt))
            (linaddr w).pd)) :=
          ⟨_, hB2, (linaddr w).pd, hP2w, rfl⟩
        apply hdelta
        · rintro ⟨hh, _⟩; exact hstdisj03 _ hB1 hh
        · rintro ⟨hh, _⟩; exact hndA3_3 _ hB1 hh
        · rintro ⟨hh, _⟩; exact hndA2' _ hB1 hh
        · rintro ⟨hh, _⟩
          have hrdB3 : st'.mem (childAddr (st.mem st.root (linaddr w).pml4))
              (linaddr w).pdpt
              = st.mem (childAddr (st.mem st.root (linaddr w).pml4))
                (linaddr w).pdpt :=
            hdelta _ _ (fun h2 => hstdisj01 _ hB3 h2.1) (fun h2 => hB3A3 h2.1)
              (fun h2 => hndA2 _ hB3 h2.1) (fun h2 => hndA1_1 _ hB3 h2.1)
          have hB2A2 : childAddr (st.mem
              (childAddr (st.mem st.root (linaddr w).pml4)) (linaddr w).pdpt)
              ≠ A2 :=
            fun h2 => hB3A3 (hinj1 _ (linaddr w).pdpt hB3 hP3w hrdB3 h2).1
          have hrdB2 : st'.mem (childAddr (st.mem
              (childAddr (st.mem st.root (linaddr w).pml4)) (linaddr w).pdpt))
              (linaddr w).pd
              = st.mem (childAddr (st.mem
                (childAddr (st.mem st.root (linaddr w).pml4))
                (linaddr w).pdpt)) (linaddr w).pd :=
            hdelta _ _ (fun h2 => hstdisj02 _ hB2 h2.1)
              (fun h2 => hndA3_2 _ hB2 h2.1) (fun h2 => hB2A2 h2.1)
              (fun h2 => hndA1_2 _ hB2 h2.1)
          exact hB2A2 (hinj2 _ (linaddr w).pd hB2 hP2w hrdB2 hh).1

/-- Postcondition of running the per-page mapping loop `n` times from
`(vra, pra)`. -/
structure MapLoopOk (st : St) (vra pra n : Nat) (st' : St) : Prop where
  inv : PgInv st'
  root : st'.root = st.root
  cr3 : st'.cr3 = st.cr3
  trace : st'.trace = st.trace ++ List.replicate n Ev.mapWrite
  freeDrop : ∃ dk, dk ≤ 3 * n ∧ st'.free = st.free.drop dk
  walkNew : ∀ i, i < n → walk st' (vra + 4096 * i) = some (pra + 4096 * i)
  walkOld : ∀ w, (∀ i, i < n → pagePath w ≠ pagePath (vra + 4096 * i)) →
    walk st' w = walk st w

theorem mapLoopN_spec : ∀ (n : Nat) (st : St) (vra pra : Nat),
    PgInv st → vra % 4096 = 0 → pra % 4096 = 0 →
    vra + 4096 * n ≤ 2 ^ 48 → pra + 4096 * n ≤ 2 ^ 52 →
    3 * n ≤ st.free.length →
    ∃ st', mapLoopN n vra pra st = .ok st' ∧ MapLoopOk st vra pra n st' := by
  intro n
  induction n with
  | zero =>
    intro st vra pra hInv _ _ _ _ _
    exact ⟨st, rfl, ⟨hInv, rfl, rfl, by simp, ⟨0, by omega, rfl⟩,
      fun i hi => absurd hi (by omega), fun w _ => rfl⟩⟩
  | succ n ih =>
    intro st vra pra hInv hva hpa hv48 hp52 hfree
    obtain ⟨st1, h1⟩ := map_page_progress st (vra % 2 ^ 64) (pra % 2 ^ 64)
      (by omega)
    have hvlt : vra < 2 ^ 64 := by omega
    have hplt : pra < 2 ^ 64 := by omega
    rw [Nat.mod_eq_of_lt hvlt, Nat.mod_eq_of_lt hplt] at h1
    have sp := map_page_spec st st1 vra pra hInv h1
    have hfree1 : 3 * n ≤ st1.free.length := by
      obtain ⟨dk, hdk, hq⟩ := sp.freeDrop
      rw [hq, List.length_drop]
      omega
    obtain ⟨st', h2, lo⟩ := ih st1 (vra + 4096) (pra + 4096) sp.inv (by omega)
      (by omega) (by omega) (by omega) hfree1
    refine ⟨st', ?_, ?_⟩
    · show (match map_page_pml4 st (vra % 2 ^ 64) (pra % 2 ^ 64) with
        | Except.error s => Except.error s
        | Except.ok stx => mapLoopN n (vra + 4096) (pra + 4096) stx) = Except.ok st'
      rw [Nat.mod_eq_of_lt hvlt, Nat.mod_eq_of_lt hplt, h1]
      exact h2
    · refine ⟨lo.inv, by rw [lo.root, sp.root], by rw [lo.cr3, sp.cr3],
        ?_, ?_, ?_, ?_⟩
      · rw [lo.trace, sp.trace, List.append_assoc]
        congr 1
      · obtain ⟨dk1, hdk1, hq1⟩ := sp.freeDrop
        obtain ⟨dk2, hdk2, hq2⟩ := lo.freeDrop
        exact ⟨dk1 + dk2, by omega, by rw [hq2, hq1, List.drop_drop]⟩
      · intro i hi
        cases i with
        | zero =>
          have hg : ∀ j, j < n → pagePath vra ≠ pagePath (vra + 4096 + 4096 * j) := by
            intro j hj
            apply pagePath_ne <;> omega
          have h0 := lo.walkOld vra hg
          rw [show vra + 4096 * 0 = vra by ring, show pra + 4096 * 0 = pra by ring,
            h0, sp.walkNew, frameOf_eq pra hpa (by omega)]
        | succ i =>
          have hi' : i < n := by omega
          have hres := lo.walkNew i hi'
          rw [show vra + 4096 * (i + 1) = vra + 4096 + 4096 * i by ring,
            show pra + 4096 * (i + 1) = pra + 4096 + 4096 * i by ring]
          exact hres
      · intro w hw
        have hg1 : ∀ i, i < n → pagePath w ≠ pagePath (vra + 4096 + 4096 * i) := by
          intro i hi
          have hh := hw (i + 1) (by omega)
          rw [show vra + 4096 * (i + 1) = vra + 4096 + 4096 * i by ring] at hh
          exact hh
        have hg0 : pagePath w ≠ pagePath vra := by
          have hh := hw 0 (by omega)
          rw [show vra + 4096 * 0 = vra by ring] at hh
          exact hh
        rw [lo.walkOld w hg1, sp.walkOld w hg0]

theorem mapLoopN_succ_eq (n vra pra : Nat) (st : St) :
    mapLoopN (n + 1) vra pra st
      = match map_page_pml4 st (vra % 2 ^ 64) (pra % 2 ^ 64) with
        | Except.error s => Except.error s
        | Except.ok st1 => mapLoopN n (vra + 4096) (pra + 4096) st1 := rfl

theorem mapLoopN_err : ∀ (n : Nat) (st : St) (vra pra : Nat) (s : St),
    PgInv st → mapLoopN n vra pra st = .error s → PgInv s := by
  intro n
  induction n with
  | zero => intro st vra pra s _ h; cases h
  | succ n ih =>
    intro st vra pra s hInv h
    rw [mapLoopN_succ_eq] at h
    cases hg : map_page_pml4 st (vra % 2 ^ 64) (pra % 2 ^ 64) with
    | error s1 =>
      rw [hg] at h
      injection h with h'
      rw [← h']
      exact map_page_err st s1 _ _ hInv hg
    | ok st1 =>
      rw [hg] at h
      exact ih st1 _ _ s (map_page_spec st st1 _ _ hInv hg).inv h

theorem mapLoopN_inv : ∀ (n : Nat) (st : St) (vra pra : Nat) (st' : St),
    PgInv st → mapLoopN n vra pra st = .ok st' → PgInv st' := by
  intro n
  induction n with
  | zero =>
    intro st vra pra st' hInv h
    injection h with h'
    rw [← h']
    exact hInv
  | succ n ih =>
    intro st vra pra st' hInv h
    rw [mapLoopN_succ_eq] at h
    cases hg : map_page_pml4 st (vra % 2 ^ 64) (pra % 2 ^ 64) with
    | error s1 => rw [hg] at h; cases h
    | ok st1 =>
      rw [hg] at h
      exact ih st1 _ _ st' (map_page_spec st st1 _ _ hInv hg).inv h

/-- Mapping one page only appends one `mapWrite` event (no invariant
needed). -/
theorem map_page_frame (st st' : St) (v p : Nat)
    (h : map_page_pml4 st v p = .ok st') :
    st'.root = st.root ∧ st'.cr3 = st.cr3 ∧
      st'.trace = st.trace ++ [Ev.mapWrite] := by
  obtain ⟨A3, st1, hg1, h⟩ := map_page_pml4_dest st st' v p h
  obtain ⟨A2, st2, hg2, h⟩ := map_page_pdpt_dest st1 A3 st' v p h
  obtain ⟨A1, st3, hg3, hleaf⟩ := map_page_pd_dest st2 A2 st' v p h
  obtain ⟨f1r, f1c, f1t⟩ := get_pm_frame st _ _ A3 st1 hg1
  obtain ⟨f2r, f2c, f2t⟩ := get_pm_frame st1 _ _ A2 st2 hg2
  obtain ⟨f3r, f3c, f3t⟩ := get_pm_frame st2 _ _ A1 st3 hg3
  rw [hleaf]
  refine ⟨?_, ?_, ?_⟩
  · show st3.root = st.root
    rw [f3r, f2r, f1r]
  · show st3.cr3 = st.cr3
    rw [f3c, f2c, f1c]
  · show st3.trace ++ [Ev.mapWrite] = st.trace ++ [Ev.mapWrite]
    rw [f3t, f2t, f1t]

theorem mapLoopN_frame : ∀ (n : Nat) (st : St) (vra pra : Nat) (st' : St),
    mapLoopN n vra pra st = .ok st' →
    st'.root = st.root ∧ st'.cr3 = st.cr3 ∧
      ∃ m, st'.trace = st.trace ++ List.replicate m Ev.mapWrite := by
  intro n
  induction n with
  | zero =>
    intro st vra pra st' h
    injection h with h'
    rw [← h']
    exact ⟨rfl, rfl, 0, by simp⟩
  | succ n ih =>
    intro st vra pra st' h
    rw [mapLoopN_succ_eq] at h
    cases hg : map_page_pml4 st (vra % 2 ^ 64) (pra % 2 ^ 64) with
    | error s1 => rw [hg] at h; cases h
    | ok st1 =>
      rw [hg] at h
      obtain ⟨f1r, f1c, f1t⟩ := map_page_frame st st1 _ _ hg
      obtain ⟨f2r, f2c, m, f2t⟩ := ih st1 _ _ st' h
      refine ⟨by rw [f2r, f1r], by rw [f2c, f1c], m + 1, ?_⟩
      rw [f2t, f1t, List.append_assoc]
      congr 1

/-! ## The region mapper -/

theorem map_region_eq_loop (st : St) (vra pra : Nat) (np : Int)
    (h0 : 0 ≤ np) (hlt : (vra : Int) + np * 4096 < 2 ^ 64) :
    map_region st vra pra np = mapLoopN np.toNat vra pra st := by
  simp only [map_region]
  have hge : 0 ≤ (vra : Int) + np * 4096 := by positivity
  rw [Int.emod_eq_of_lt hge hlt]
  congr 1
  omega

/-- The master theorem for `map_region` with a nonnegative page count:
all pages translate afterwards, other paths are untouched. -/
theorem map_region_spec (st : St) (vra pra : Nat) (np : Int)
    (hInv : PgInv st) (hva : vra % 4096 = 0) (hpa : pra % 4096 = 0)
    (hnp : 0 ≤ np)
    (hv48 : vra + 4096 * np.toNat ≤ 2 ^ 48)
    (hp52 : pra + 4096 * np.toNat ≤ 2 ^ 52)
    (hfree : 3 * np.toNat ≤ st.free.length) :
    ∃ st', map_region st vra pra np = .ok st' ∧
      MapLoopOk st vra pra np.toNat st' := by
  have heq := map_region_eq_loop st vra pra np hnp (by omega)
  rw [heq]
  exact mapLoopN_spec np.toNat st vra pra hInv hva hpa hv48 hp52 hfree

theorem map_region_err (st s : St) (vra pra : Nat) (np : Int)
    (hInv : PgInv st) (h : map_region st vra pra np = .error s) : PgInv s := by
  simp only [map_region] at h
  exact mapLoopN_err _ st vra pra s hInv h

theorem map_region_inv (st st' : St) (vra pra : Nat) (np : Int)
    (hInv : PgInv st) (h : map_region st vra pra np = .ok st') : PgInv st' := by
  simp only [map_region] at h
  exact mapLoopN_inv _ st vra pra st' hInv h

theorem map_region_frame (st st' : St) (vra pra : Nat) (np : Int)
    (h : map_region st vra pra np = .ok st') :
    st'.root = st.root ∧ st'.cr3 = st.cr3 ∧
      ∃ m, st'.trace = st.trace ++ List.replicate m Ev.mapWrite := by
  simp only [map_region] at h
  exact mapLoopN_frame _ st vra pra st' h

/-! ## The identity-mapping policy -/

/-- The `int` narrowing is value-preserving below 2^31. -/
theorem toIntC_eq_of_lt (n : Nat) (h : n < 2 ^ 31) : toIntC n = (n : Int) := by
  unfold toIntC
  rw [Nat.mod_eq_of_lt (by omega), if_pos (by omega)]

theorem map_efi_regions_cons (st : St) (md : Desc) (rest : List Desc) :
    map_efi_regions st (md :: rest)
      = match (if md.runtimeAttr then
            map_region_id st md.physicalStart (toIntC md.numberOfPages)
          else if md.type = EfiType.loaderCode then
            map_region_id st md.physicalStart (toIntC md.numberOfPages)
          else if md.type = EfiType.loaderData then
            map_region_id st md.physicalStart (toIntC md.numberOfPages)
          else Except.ok st) with
        | Except.error s => Except.error s
        | Except.ok st1 => map_efi_regions st1 rest := rfl

theorem efi_step_err (st s : St) (md : Desc) (hInv : PgInv st)
    (h : (if md.runtimeAttr then
        map_region_id st md.physicalStart (toIntC md.numberOfPages)
      else if md.type = EfiType.loaderCode then
        map_region_id st md.physicalStart (toIntC md.numberOfPages)
      else if md.type = EfiType.loaderData then
        map_region_id st md.physicalStart (toIntC md.numberOfPages)
      else Except.ok st) = Except.error s) : PgInv s := by
  by_cases h1 : md.runtimeAttr
  · rw [if_pos h1] at h
    unfold map_region_id at h
    exact map_region_err st s _ _ _ hInv h
  · rw [if_neg h1] at h
    by_cases h2 : md.type = EfiType.loaderCode
    · rw [if_pos h2] at h
      unfold map_region_id at h
      exact map_region_err st s _ _ _ hInv h
    · rw [if_neg h2] at h
      by_cases h3 : md.type = EfiType.loaderData
      · rw [if_pos h3] at h
        unfold map_region_id at h
        exact map_region_err st s _ _ _ hInv h
      · rw [if_neg h3] at h
        cases h

theorem efi_step_ok (st st1 : St) (md : Desc) (hInv : PgInv st)
    (h : (if md.runtimeAttr then
        map_region_id st md.physicalStart (toIntC md.numberOfPages)
      else if md.type = EfiType.loaderCode then
        map_region_id st md.physicalStart (toIntC md.numberOfPages)
      else if md.type = EfiType.loaderData then
        map_region_id st md.physicalStart (toIntC md.numberOfPages)
      else Except.ok st) = Except.ok st1) : PgInv st1 := by
  by_cases h1 : md.runtimeAttr
  · rw [if_pos h1] at h
    unfold map_region_id at h
    exact map_region_inv st st1 _ _ _ hInv h
  · rw [if_neg h1] at h
    by_cases h2 : md.type = EfiType.loaderCode
    · rw [if_pos h2] at h
      unfold map_region_id at h
      exact map_region_inv st st1 _ _ _ hInv h
    · rw [if_neg h2] at h
      by_cases h3 : md.type = EfiType.loaderData
      · rw [if_pos h3] at h
        unfold map_region_id at h
        exact map_region_inv st st1 _ _ _ hInv h
      · rw [if_neg h3] at h
        injection h with h'
        rw [← h']
        exact hInv

theorem efi_step_frame (st st1 : St) (md : Desc)
    (h : (if md.runtimeAttr then
        map_region_id st md.physicalStart (toIntC md.numberOfPages)
      else if md.type = EfiType.loaderCode then
        map_region_id st md.physicalStart (toIntC md.numberOfPages)
      else if md.type = EfiType.loaderData then
        map_region_id st md.physicalStart (toIntC md.numberOfPages)
      else Except.ok st) = Except.ok st1) :
    st1.root = st.root ∧ st1.cr3 = st.cr3 ∧
      ∃ m, st1.trace = st.trace ++ List.replicate m Ev.mapWrite := by
  by_cases h1 : md.runtimeAttr
  · rw [if_pos h1] at h
    unfold map_region_id at h
    exact map_region_frame st st1 _ _ _ h
  · rw [if_neg h1] at h
    by_cases h2 : md.type = EfiType.loaderCode
    · rw [if_pos h2] at h
      unfold map_region_id at h
      exact map_region_frame st st1 _ _ _ h
    · rw [if_neg h2] at h
      by_cases h3 : md.type = EfiType.loaderData
      · rw [if_pos h3] at h
        unfold map_region_id at h
        exact map_region_frame st st1 _ _ _ h
      · rw [if_neg h3] at h
        injection h with h'
        rw [← h']
        exact ⟨rfl, rfl, 0, by simp⟩

theorem map_efi_err : ∀ (mds : List Desc) (st s : St), PgInv st →
    map_efi_regions st mds = .error s → PgInv s := by
  intro mds
  induction mds with
  | nil => intro st s _ h; cases h
  | cons md rest ih =>
    intro st s hInv h
    rw [map_efi_regions_cons] at h
    cases hstep : (if md.runtimeAttr then
        map_region_id st md.physicalStart (toIntC md.numberOfPages)
      else if md.type = EfiType.loaderCode then
        map_region_id st md.physicalStart (toIntC md.numberOfPages)
      else if md.type = EfiType.loaderData then
        map_region_id st md.physicalStart (toIntC md.numberOfPages)
      else Except.ok st) with
    | error s1 =>
      rw [hstep] at h
      injection h with h'
      rw [← h']
      exact efi_step_err st s1 md hInv hstep
    | ok st1 =>
      rw [hstep] at h
      exact ih st1 s (efi_step_ok st st1 md hInv hstep) h

theorem map_efi_frame : ∀ (mds : List Desc) (st st' : St),
    map_efi_regions st mds = .ok st' →
    st'.root = st.root ∧ st'.cr3 = st.cr3 ∧
      ∃ m, st'.trace = st.trace ++ List.replicate m Ev.mapWrite := by
  intro mds
  induction mds with
  | nil =>
    intro st st' h
    injection h with h'
    rw [← h']
    exact ⟨rfl, rfl, 0, by simp⟩
  | cons md rest ih =>
    intro st st' h
    rw [map_efi_regions_cons] at h
    cases hstep : (if md.runtimeAttr then
        map_region_id st md.physicalStart (toIntC md.numberOfPages)
      else if md.type = EfiType.loaderCode then
        map_region_id st md.physicalStart (toIntC md.numberOfPages)
      else if md.type = EfiType.loaderData then
        map_region_id st md.physicalStart (toIntC md.numberOfPages)
      else Except.ok st) with
    | error s1 => rw [hstep] at h; cases h
    | ok st1 =>
      rw [hstep] at h
      obtain ⟨f1r, f1c, m1, f1t⟩ := efi_step_frame st st1 md hstep
      obtain ⟨f2r, f2c, m2, f2t⟩ := ih st1 st' h
      refine ⟨by rw [f2r, f1r], by rw [f2c, f1c], m1 + m2, ?_⟩
      rw [f2t, f1t, List.append_assoc]
      congr 1
      exact (List.replicate_add m1 m2 Ev.mapWrite).symm

/-! ## Claim theorems -/

/-- C5: the entry codec round-trips exactly: for every 4096-aligned
address `A` below `2^52`, decoding the frame address of an entry
initialized with `A` yields `A` again, the initialized entry is Present,
and a zero-initialized entry is not Present. -/
theorem pe_codec_roundtrip (e : Pe) (A : Nat) (h4 : A % 4096 = 0)
    (h52 : A < 2 ^ 52) :
    childAddr (init_pe e A) = A ∧ isP (init_pe e A) ∧ ¬ isP Pe.zero :=
  ⟨childAddr_init_pe e A h4 h52, isP_init_pe e A, not_isP_zero⟩

theorem pe_codec_roundtrip_witness :
    ((4096:Nat) % 4096 = 0 ∧ (4096:Nat) < 2 ^ 52) ∧
      (childAddr (init_pe Pe.zero 4096) = 4096 ∧ isP (init_pe Pe.zero 4096) ∧
        ¬ isP Pe.zero) :=
  ⟨⟨by decide, by decide⟩, pe_codec_roundtrip Pe.zero 4096 (by decide) (by decide)⟩

/-- An entry whose User/Supervisor bit is set before `init_pe`. -/
def c7pe : Pe := { Pe.zero with us := 1 }

/-- C7 counterexample: `init_pe` does not leave all other fields at zero
for every entry: on an entry whose U/S field is nonzero, the field stays
nonzero after `init_pe`. -/
theorem init_pe_zero_fields_cex : ¬ ((init_pe c7pe 4096).us = 0) := by decide

/-- C7 (amended): `init_pe` sets the frame-number field to
`A >> 12` truncated to the 40-bit field, Present to 1 and Read/Write to 1,
and leaves every other field of the entry unchanged (hence zero exactly
when the entry started from the zero state). -/
theorem init_pe_fields (e : Pe) (A : Nat) :
    (init_pe e A).phy = (A >>> 12) % 2 ^ 40 ∧ (init_pe e A).p = 1 ∧
    (init_pe e A).rw = 1 ∧ (init_pe e A).us = e.us ∧
    (init_pe e A).pwt = e.pwt ∧ (init_pe e A).pcd = e.pcd ∧
    (init_pe e A).a = e.a ∧ (init_pe e A).d = e.d ∧
    (init_pe e A).pat_ps = e.pat_ps ∧ (init_pe e A).g = e.g ∧
    (init_pe e A).ignored_0 = e.ignored_0 ∧
    (init_pe e A).ignored_1 = e.ignored_1 ∧ (init_pe e A).pk = e.pk ∧
    (init_pe e A).xd = e.xd :=
  ⟨rfl, rfl, rfl, rfl, rfl, rfl, rfl, rfl, rfl, rfl, rfl, rfl, rfl, rfl⟩

/-- C8: on a Present entry the walker returns the entry's decoded frame
address and the machine state completely unchanged: no allocation, no
mutation. -/
theorem get_pm_hit_no_mutation (st : St) (t i : Nat) (hi : i < 512)
    (hP : isP (st.mem t i)) :
    get_pm st t i = .ok (childAddr (st.mem t i), st) := get_pm_hit st t i hP

/-- A state with one Present root entry. -/
def w8st : St :=
  { root := 0,
    mem := fun a j => if a = 0 ∧ j = 0 then { Pe.zero with p := 1, phy := 5 }
      else Pe.zero,
    free := [], allocated := [], cr3 := 0, trace := [] }

theorem get_pm_hit_no_mutation_witness :
    ((0:Nat) < 512 ∧ isP (w8st.mem 0 0)) ∧
      get_pm w8st 0 0 = .ok (childAddr (w8st.mem 0 0), w8st) :=
  ⟨⟨by decide, by decide⟩,
    get_pm_hit_no_mutation w8st 0 0 (by decide) (by decide)⟩

/-- C3: the walker is idempotent per index path: a second call with the
same parent and index after a completed first call returns the same child
address and the same state, and across both calls exactly one frame is
consumed on the allocating branch and zero on the hit branch. -/
theorem get_pm_idempotent (st : St) (t i c : Nat) (st1 : St) (hi : i < 512)
    (hfree : ∀ f ∈ st.free, f % 4096 = 0 ∧ f < 2 ^ 52)
    (h : get_pm st t i = .ok (c, st1)) :
    get_pm st1 t i = .ok (c, st1) ∧
    (¬ isP (st.mem t i) → st1.free.length + 1 = st.free.length) ∧
    (isP (st.mem t i) → st1.free = st.free) := by
  by_cases hP : isP (st.mem t i)
  · rw [get_pm_hit st t i hP] at h
    injection h with h'
    injection h' with h1 h2
    subst h2
    subst h1
    exact ⟨get_pm_hit st t i hP, fun hn => absurd hP hn, fun _ => rfl⟩
  · cases hf : st.free with
    | nil =>
      exfalso
      have herr : get_pm st t i = .error st := by
        have hp0 : (st.mem t i).p = 0 := Decidable.not_not.mp hP
        simp only [get_pm, pgalloc, hf, hp0, if_pos]
      rw [herr] at h
      cases h
    | cons c0 r =>
      rw [get_pm_miss st t i c0 r hP hf] at h
      injection h with h'
      injection h' with h1 h2
      subst h1
      subst h2
      have hc0 : c0 ∈ st.free := by rw [hf]; exact List.mem_cons_self c0 r
      have hlink : childAddr (init_pe (st.mem t i) c0) = c0 :=
        childAddr_init_pe _ c0 (hfree c0 hc0).1 (hfree c0 hc0).2
      have hP1 : isP ((linkSt st t i c0 r).mem t i) := by
        rw [linkSt_mem, if_pos ⟨rfl, rfl⟩]
        exact isP_init_pe _ _
      have hce : childAddr ((linkSt st t i c0 r).mem t i) = c0 := by
        rw [linkSt_mem, if_pos ⟨rfl, rfl⟩]
        exact hlink
      refine ⟨?_, fun _ => rfl, fun hp => absurd hp hP⟩
      rw [get_pm_hit _ t i hP1, hce]

/-- A pristine machine with a single free frame. -/
def w3st : St := pristine 0 [4096]

theorem get_pm_idempotent_witness :
    ((0:Nat) < 512 ∧ (∀ f ∈ w3st.free, f % 4096 = 0 ∧ f < 2 ^ 52)) ∧
    (∃ c st1, get_pm w3st 0 0 = .ok (c, st1) ∧
      get_pm st1 0 0 = .ok (c, st1)) := by
  have hfree : ∀ f ∈ w3st.free, f % 4096 = 0 ∧ f < 2 ^ 52 := by decide
  have hex : ∃ c st1, get_pm w3st 0 0 = Except.ok (c, st1) := ⟨_, _, rfl⟩
  obtain ⟨c, st1, hc⟩ := hex
  exact ⟨⟨by decide, hfree⟩,
    c, st1, hc, (get_pm_idempotent w3st 0 0 c st1 (by decide) hfree hc).1⟩

/-- A garbage Present entry as found in a never-zeroed physical frame. -/
def c4junk : Pe := { Pe.zero with p := 1, phy := 12345 }

/-- A state whose single free frame holds garbage: entry 0 of frame 4096
is spuriously Present. -/
def c4st : St :=
  { root := 0,
    mem := fun a j => if a = 4096 ∧ j = 0 then c4junk else Pe.zero,
    free := [4096], allocated := [], cr3 := 0, trace := [] }

def okAddr (r : Except St (Nat × St)) (d : Nat) : Nat :=
  match r with
  | .ok (c, _) => c
  | .error _ => d

def okSt (r : Except St (Nat × St)) (d : St) : St :=
  match r with
  | .ok (_, s) => s
  | .error _ => d

/-- C4 (code bug): the walker links a freshly allocated frame without
zeroing it: after `get_pm` allocates frame 4096, the new table still
holds its garbage contents, so entry 0 of the just-created table reads as
a spuriously Present entry with a garbage frame number. -/
theorem get_pm_unzeroed_frame :
    okAddr (get_pm c4st 0 0) 0 = 4096 ∧
    ((okSt (get_pm c4st 0 0) c4st).mem 4096 0).p = 1 ∧
    ((okSt (get_pm c4st 0 0) c4st).mem 4096 0).phy = 12345 :=
  ⟨rfl, rfl, rfl⟩

def errSt (r : Except St St) (d : St) : St :=
  match r with
  | .error s => s
  | .ok _ => d

def isOkE (r : Except St St) : Bool :=
  match r with
  | .ok _ => true
  | .error _ => false

/-- A pristine machine with one free frame and root table at 0. -/
def c10st : St := pristine 0 [4096]

/-- C10 counterexample: with `np = -1 <= 0` and `vra = 0` the end address
`vra + np * 4096` wraps around `2^64`, so the per-page loop body DOES
execute: the call does not return normally with the state unchanged; it
writes a Present entry into the root table, consumes the only free frame,
and then halts on allocator exhaustion. -/
theorem map_region_negative_np_cex :
    ((-1 : Int) ≤ 0) ∧ isOkE (map_region c10st 0 0 (-1)) = false ∧
    ((errSt (map_region c10st 0 0 (-1)) c10st).mem 0 0).p = 1 ∧
    (errSt (map_region c10st 0 0 (-1)) c10st).free = [] :=
  ⟨by decide, rfl, rfl, rfl⟩

/-- C10 (amended): for `np <= 0`, if the 64-bit computation of the end
address does not wrap (i.e. `4096 * |np| <= vra`), `map_region` writes no
entry, allocates no frame and returns the state unchanged: the per-page
loop body never executes. -/
theorem map_region_nonpositive_noop (st : St) (vra pra : Nat) (np : Int)
    (h1 : np ≤ 0) (h2 : 4096 * np.natAbs ≤ vra) (h3 : vra < 2 ^ 64) :
    map_region st vra pra np = .ok st := by
  simp only [map_region]
  have hge : (0:Int) ≤ (vra : Int) + np * 4096 := by omega
  have hlt : (vra : Int) + np * 4096 < 2 ^ 64 := by omega
  rw [Int.emod_eq_of_lt hge hlt]
  have hn : ((((vra : Int) + np * 4096)).toNat - vra) / 4096 = 0 := by omega
  rw [hn]
  rfl

theorem map_region_nonpositive_noop_witness :
    ((-2 : Int) ≤ 0 ∧ 4096 * (-2 : Int).natAbs ≤ 16384 ∧
      (16384:Nat) < 2 ^ 64) ∧
    map_region (pristine 0 []) 16384 0 (-2) = .ok (pristine 0 []) :=
  ⟨⟨by decide, by decide, by decide⟩,
    map_region_nonpositive_noop (pristine 0 []) 16384 0 (-2) (by decide)
      (by decide) (by decide)⟩

/-- C1: after `map_region(V, P, N)` with page-aligned `V` and `P` and
`N >= 0` (ranges inside the 48-bit linear / 52-bit physical address
widths, a well-formed allocator state, and enough free frames), the
four-level walk of `V + i*4096` reaches a Present leaf entry whose
decoded frame address is `P + i*4096`, for every `i` in `[0, N)`. -/
theorem map_region_maps (st : St) (vra pra : Nat) (np : Int)
    (hInv : PgInv st) (hva : vra % 4096 = 0) (hpa : pra % 4096 = 0)
    (hnp : 0 ≤ np) (hv48 : vra + 4096 * np.toNat ≤ 2 ^ 48)
    (hp52 : pra + 4096 * np.toNat ≤ 2 ^ 52)
    (hfree : 3 * np.toNat ≤ st.free.length) :
    ∃ st', map_region st vra pra np = .ok st' ∧
      ∀ i, i < np.toNat → walk st' (vra + 4096 * i) = some (pra + 4096 * i) := by
  obtain ⟨st', hok, lo⟩ :=
    map_region_spec st vra pra np hInv hva hpa hnp hv48 hp52 hfree
  exact ⟨st', hok, lo.walkNew⟩

/-- A pristine machine with three free frames. -/
def w1st : St := pristine 0 [4096, 8192, 12288]

theorem map_region_maps_witness :
    (PgInv w1st ∧ (2097152:Nat) % 4096 = 0 ∧ (4194304:Nat) % 4096 = 0 ∧
      (0:Int) ≤ 1 ∧ 2097152 + 4096 * (1:Int).toNat ≤ 2 ^ 48 ∧
      4194304 + 4096 * (1:Int).toNat ≤ 2 ^ 52 ∧
      3 * (1:Int).toNat ≤ w1st.free.length) ∧
    (∃ st', map_region w1st 2097152 4194304 1 = .ok st' ∧
      ∀ i, i < (1:Int).toNat →
        walk st' (2097152 + 4096 * i) = some (4194304 + 4096 * i)) := by
  have hInv : PgInv w1st := pristine_inv 0 [4096, 8192, 12288] (by decide) (by decide)
  refine ⟨⟨hInv, by decide, by decide, by decide, by decide, by decide, by decide⟩, ?_⟩
  exact map_region_maps w1st 2097152 4194304 1 hInv (by decide) (by decide)
    (by decide) (by decide) (by decide) (by decide)

/-- C6: if the frame allocator is exhausted during any walker call of the
mapping sequence, the sequence halts, and in the halt state no live table
contains a Present entry whose decoded frame address refers to a frame
that was never handed out by the allocator. -/
theorem exhaustion_no_dangling (st s : St) (mds : List Desc)
    (hInv : PgInv st) (h : map_efi_regions st mds = .error s) :
    ∀ a k, k ≤ 2 → Lv s k a → ∀ i, isP (s.mem a i) →
      childAddr (s.mem a i) ∈ s.allocated := by
  have hs : PgInv s := map_efi_err mds st s hInv h
  intro a k hk hLv i hP
  exact hs.allocd (k + 1) (by omega) (by omega) _ ⟨a, hLv, i, hP, rfl⟩

/-- One runtime-reserved descriptor, used with an empty allocator. -/
def w6d : Desc :=
  { physicalStart := 4096, numberOfPages := 1, type := EfiType.other,
    runtimeAttr := true }

theorem exhaustion_no_dangling_witness :
    (PgInv (pristine 0 []) ∧
      map_efi_regions (pristine 0 []) [w6d] = .error (pristine 0 [])) ∧
    (∀ a k, k ≤ 2 → Lv (pristine 0 []) k a →
      ∀ i, isP ((pristine 0 []).mem a i) →
        childAddr ((pristine 0 []).mem a i) ∈ (pristine 0 []).allocated) := by
  have hInv : PgInv (pristine 0 []) := pristine_inv 0 [] (by simp) (by simp)
  have herr : map_efi_regions (pristine 0 []) [w6d] = .error (pristine 0 []) := rfl
  exact ⟨⟨hInv, herr⟩, exhaustion_no_dangling _ _ [w6d] hInv herr⟩

theorem setup_paging_dest (st st' : St) (mm : List Desc)
    (h : setup_paging st mm = .ok st') :
    ∃ st1, map_efi_regions (zero_pml4 st) mm = .ok st1 ∧
      st' = enable_paging st1 := by
  unfold setup_paging at h
  cases hg : map_efi_regions (zero_pml4 st) mm with
  | error s => rw [hg] at h; cases h
  | ok st1 =>
    rw [hg] at h
    injection h with h'
    exact ⟨st1, rfl, h'.symm⟩

/-- C9: a successful `setup_paging` performs its phases strictly in
order: it first zeroes the root table, then writes the policy-driven leaf
mappings, and only afterwards activates translation by installing the
root table's base into CR3 — the event trace is exactly one `zeroRoot`,
then some number of `mapWrite`s, then one final `activate`. -/
theorem setup_paging_order (st st' : St) (mm : List Desc)
    (h : setup_paging st mm = .ok st') :
    (∃ n, st'.trace = st.trace ++
      ([Ev.zeroRoot] ++ List.replicate n Ev.mapWrite ++ [Ev.activate])) ∧
    st'.cr3 = st.root := by
  obtain ⟨st1, hefi, hen⟩ := setup_paging_dest st st' mm h
  obtain ⟨fr, fc, m, ft⟩ := map_efi_frame mm (zero_pml4 st) st1 hefi
  constructor
  · refine ⟨m, ?_⟩
    rw [hen]
    show st1.trace ++ [Ev.activate] = _
    rw [ft]
    show (st.trace ++ [Ev.zeroRoot]) ++ List.replicate m Ev.mapWrite
      ++ [Ev.activate] = _
    simp [List.append_assoc]
  · rw [hen]
    show st1.root = st.root
    exact fr

theorem setup_paging_order_witness :
    ∃ st', setup_paging (pristine 7 []) [] = .ok st' ∧
      ((∃ n, st'.trace = (pristine 7 []).trace ++
        ([Ev.zeroRoot] ++ List.replicate n Ev.mapWrite ++ [Ev.activate])) ∧
        st'.cr3 = (pristine 7 []).root) := by
  have hex : ∃ s, setup_paging (pristine 7 []) [] = Except.ok s := ⟨_, rfl⟩
  obtain ⟨s, hs⟩ := hex
  exact ⟨s, hs, setup_paging_order (pristine 7 []) s [] hs⟩

/-- C2: the identity-mapping policy processes descriptors independently,
first matching condition wins: a runtime-reserved region is
identity-mapped (whatever its type), else a LoaderCode region, else a
LoaderData region, else nothing.  For a map with one runtime-reserved
descriptor, one LoaderCode descriptor and one Other descriptor without
the reserved bit (disjoint aligned in-range regions, enough frames,
starting from a state in which nothing is mapped), exactly the first two
regions are reachable afterwards, and every address inside the third
still walks to nothing.  The page counts are bounded by 2^31 so that the
`int` narrowing at the `map_region_id` call boundary is
value-preserving. -/
theorem map_efi_regions_policy (st : St) (d1 d2 d3 : Desc)
    (hInv : PgInv st) (hw : ∀ v, walk st v = none)
    (h1r : d1.runtimeAttr = true)
    (h2r : d2.runtimeAttr = false) (h2t : d2.type = EfiType.loaderCode)
    (h3r : d3.runtimeAttr = false) (h3t : d3.type = EfiType.other)
    (hn1 : d1.numberOfPages < 2 ^ 31) (hn2 : d2.numberOfPages < 2 ^ 31)
    (ha1 : d1.physicalStart % 4096 = 0) (ha2 : d2.physicalStart % 4096 = 0)
    (hb1 : d1.physicalStart + 4096 * d1.numberOfPages ≤ 2 ^ 48)
    (hb2 : d2.physicalStart + 4096 * d2.numberOfPages ≤ 2 ^ 48)
    (hb3 : d3.physicalStart + 4096 * d3.numberOfPages ≤ 2 ^ 48)
    (hd12 : d1.physicalStart + 4096 * d1.numberOfPages ≤ d2.physicalStart ∨
      d2.physicalStart + 4096 * d2.numberOfPages ≤ d1.physicalStart)
    (hd13 : d1.physicalStart + 4096 * d1.numberOfPages ≤ d3.physicalStart ∨
      d3.physicalStart + 4096 * d3.numberOfPages ≤ d1.physicalStart)
    (hd23 : d2.physicalStart + 4096 * d2.numberOfPages ≤ d3.physicalStart ∨
      d3.physicalStart + 4096 * d3.numberOfPages ≤ d2.physicalStart)
    (hfree : 3 * (d1.numberOfPages + d2.numberOfPages) ≤ st.free.length) :
    ∃ st', map_efi_regions st [d1, d2, d3] = .ok st' ∧
      (∀ i, i < d1.numberOfPages →
        walk st' (d1.physicalStart + 4096 * i)
          = some (d1.physicalStart + 4096 * i)) ∧
      (∀ i, i < d2.numberOfPages →
        walk st' (d2.physicalStart + 4096 * i)
          = some (d2.physicalStart + 4096 * i)) ∧
      (∀ v, d3.physicalStart ≤ v →
        v < d3.physicalStart + 4096 * d3.numberOfPages →
        walk st' v = none) := by
  obtain ⟨st1, hok1, lo1⟩ := map_region_spec st d1.physicalStart d1.physicalStart
    (d1.numberOfPages : Int) hInv ha1 ha1 (by omega) (by omega) (by omega)
    (by omega)
  have hfree2 : 3 * ((d2.numberOfPages : Int)).toNat ≤ st1.free.length := by
    obtain ⟨dk, hdk, hq⟩ := lo1.freeDrop
    rw [hq, List.length_drop]
    omega
  obtain ⟨st2, hok2, lo2⟩ := map_region_spec st1 d2.physicalStart
    d2.physicalStart (d2.numberOfPages : Int) lo1.inv ha2 ha2 (by omega)
    (by omega) (by omega) hfree2
  have htc1 : toIntC d1.numberOfPages = (d1.numberOfPages : Int) :=
    toIntC_eq_of_lt _ hn1
  have htc2 : toIntC d2.numberOfPages = (d2.numberOfPages : Int) :=
    toIntC_eq_of_lt _ hn2
  have htt : (true = true) := rfl
  have hbf : ¬ (false = true) := by decide
  have hcc : (EfiType.loaderCode = EfiType.loaderCode) := rfl
  have hoc : ¬ (EfiType.other = EfiType.loaderCode) := by decide
  have hod : ¬ (EfiType.other = EfiType.loaderData) := by decide
  have hcomp : map_efi_regions st [d1, d2, d3] = .ok st2 := by
    rw [map_efi_regions_cons, h1r, if_pos htt]
    unfold map_region_id
    rw [htc1, hok1]
    show map_efi_regions st1 [d2, d3] = Except.ok st2
    rw [map_efi_regions_cons, h2r, if_neg hbf, h2t, if_pos hcc]
    unfold map_region_id
    rw [htc2, hok2]
    show map_efi_regions st2 [d3] = Except.ok st2
    rw [map_efi_regions_cons, h3r, if_neg hbf, h3t, if_neg hoc, if_neg hod]
    rfl
  refine ⟨st2, hcomp, ?_, ?_, ?_⟩
  · intro i hi
    have h1 := lo1.walkNew i (by omega)
    have hside : ∀ j, j < ((d2.numberOfPages : Int)).toNat →
        pagePath (d1.physicalStart + 4096 * i)
          ≠ pagePath (d2.physicalStart + 4096 * j) := by
      intro j hj
      apply pagePath_ne <;> omega
    rw [lo2.walkOld (d1.physicalStart + 4096 * i) hside]
    exact h1
  · intro i hi
    exact lo2.walkNew i (by omega)
  · intro v hv3l hv3r
    have hside1 : ∀ j, j < ((d1.numberOfPages : Int)).toNat →
        pagePath v ≠ pagePath (d1.physicalStart + 4096 * j) := by
      intro j hj hpp
      have hdiv := pagePath_eq_imp_div v (d1.physicalStart + 4096 * j)
        (by omega) (by omega) hpp
      omega
    have hside2 : ∀ j, j < ((d2.numberOfPages : Int)).toNat →
        pagePath v ≠ pagePath (d2.physicalStart + 4096 * j) := by
      intro j hj hpp
      have hdiv := pagePath_eq_imp_div v (d2.physicalStart + 4096 * j)
        (by omega) (by omega) hpp
      omega
    rw [lo2.walkOld v hside2, lo1.walkOld v hside1, hw v]

/-- Runtime-reserved region (type Other: the attribute wins). -/
def w2d1 : Desc :=
  { physicalStart := 1048576, numberOfPages := 1, type := EfiType.other,
    runtimeAttr := true }

/-- LoaderCode region without the reserved bit. -/
def w2d2 : Desc :=
  { physicalStart := 2097152, numberOfPages := 1,
    type := EfiType.loaderCode, runtimeAttr := false }

/-- Other region without the reserved bit: must stay unmapped. -/
def w2d3 : Desc :=
  { physicalStart := 3145728, numberOfPages := 1, type := EfiType.other,
    runtimeAttr := false }

/-- A pristine machine with six free frames. -/
def w2st : St := pristine 0 [4096, 8192, 12288, 16384, 20480, 24576]

theorem map_efi_regions_policy_witness :
    (PgInv w2st ∧ (∀ v, walk w2st v = none) ∧ w2d1.runtimeAttr = true ∧
      w2d2.runtimeAttr = false ∧ w2d2.type = EfiType.loaderCode ∧
      w2d3.runtimeAttr = false ∧ w2d3.type = EfiType.other ∧
      w2d1.numberOfPages < 2 ^ 31 ∧ w2d2.numberOfPages < 2 ^ 31 ∧
      3 * (w2d1.numberOfPages + w2d2.numberOfPages) ≤ w2st.free.length) ∧
    (∃ st', map_efi_regions w2st [w2d1, w2d2, w2d3] = .ok st' ∧
      (∀ i, i < w2d1.numberOfPages →
        walk st' (w2d1.physicalStart + 4096 * i)
          = some (w2d1.physicalStart + 4096 * i)) ∧
      (∀ i, i < w2d2.numberOfPages →
        walk st' (w2d2.physicalStart + 4096 * i)
          = some (w2d2.physicalStart + 4096 * i)) ∧
      (∀ v, w2d3.physicalStart ≤ v →
        v < w2d3.physicalStart + 4096 * w2d3.numberOfPages →
        walk st' v = none)) := by
  have hInv : PgInv w2st :=
    pristine_inv 0 [4096, 8192, 12288, 16384, 20480, 24576] (by decide) (by decide)
  have hwn : ∀ v, walk w2st v = none := pristine_walk 0 _
  refine ⟨⟨hInv, hwn, rfl, rfl, rfl, rfl, rfl, by decide, by decide,
    by decide⟩, ?_⟩
  exact map_efi_regions_policy w2st w2d1 w2d2 w2d3 hInv hwn rfl rfl rfl rfl rfl
    (by decide) (by decide) (by decide) (by decide) (by decide) (by decide)
    (by decide) (by decide) (by decide) (by decide) (by decide)
